import Mathlib

/-!
Sensitive-word trie: data model and matching loops.

A shallow embedding of `data_tree.go`.

* A Go string is modelled by its sequence of code points (`[]rune(text)`), a
  rune by its code point number.
* `Replace` returns `string(runes)` of a slice that holds the mask, a rune
  that did not come from a string: `stringOfRunes` is this conversion, which
  writes U+FFFD for a rune that is not valid.  The strings that `Validate`,
  `FindAll` and `Filter` return are made of runes of `[]rune(text)`, all valid,
  which the conversion gives back as they are.
* The pointer-linked trie is a tree value whose child map is an association
  list; a node that the source changes through a pointer is rebuilt and stored
  back under its key.
* Every `for` loop of the source is a step function on the loop state: one pass
  through the loop body, the trailing `position++` included, so that
  `position = left; left++; continue` gives `left + 1` for both cursors.
  `iterate` runs the passes.  A scan is granted `scanFuel` passes and the
  theorems show that it returns within them, so every result below is a
  `some`.
* The test `position == length-1` is written `position + 1 == length`; it is
  only reached with `position < length`.
* An index or slice expression that the source does not guard (`runes[left]`
  and `runes[left:]` in `Filter`, `matches[i]` in `FindAll`) gives `Step.fault`
  when it is out of range.

* The cursors of a run are read off `passes`, the loop states at the head of
  every pass; `endsDone_of_iterate` ties it to `iterate`.
* Two tries are compared as values where the source leaves the trie as it is
  (`Del` of an absent phrase), and by their root paths and the fields at the
  end of each path (`SameTrie`) where the order of insertion shows in the
  association lists, which a Go map does not have.

The theorems quantify over every trie value, which covers the tries built by
`Add` and `Del`.  A live phrase is a non-empty sequence of code points whose
path from the root ends at a node flagged as path end; in a built trie the root
is never flagged (`built_root`), so there the path condition alone says it.
-/

namespace Sensitive

set_option linter.unusedVariables false

/-- A Go `rune`, identified with its code point number. -/
abbrev Rune := Nat

/-- Type `DataNode`: one node of the trie.  `Children` is the Go map
`map[rune]*DataNode`, kept as an association list read by its first entry
for a key. -/
inductive DataNode where
  | mk (isRootNode : Bool) (isPathEnd : Bool) (Character : Rune)
      (Children : List (Rune × DataNode)) : DataNode

namespace DataNode

/-- Field `isRootNode`. -/
def isRootNode : DataNode → Bool
  | mk r _ _ _ => r

/-- Field `isPathEnd`. -/
def isPathEnd : DataNode → Bool
  | mk _ e _ _ => e

/-- Field `Character`. -/
def Character : DataNode → Rune
  | mk _ _ c _ => c

/-- Field `Children`. -/
def Children : DataNode → List (Rune × DataNode)
  | mk _ _ _ cs => cs

/-- Method `IsLeafNode`: `len(node.Children) == 0`. -/
def IsLeafNode (node : DataNode) : Bool := node.Children.length == 0

/-- Method `IsRootNode`: the field `isRootNode`. -/
def IsRootNode (node : DataNode) : Bool := node.isRootNode

/-- Method `IsPathEnd`: the field `isPathEnd`. -/
def IsPathEnd (node : DataNode) : Bool := node.isPathEnd

/-- Method `SoftDel`: `node.isPathEnd = false`. -/
def SoftDel (node : DataNode) : DataNode :=
  mk node.isRootNode false node.Character node.Children

/-- The assignment `node.isPathEnd = true` of `add`. -/
def markPathEnd (node : DataNode) : DataNode :=
  mk node.isRootNode true node.Character node.Children

/-- The map read `next, ok := node.Children[r]`. -/
def child (node : DataNode) (r : Rune) : Option DataNode :=
  List.lookup r node.Children

end DataNode

/-- The map write `m[r] = v` on an association list: the entry of `r` is
overwritten where there is one, a new entry is added otherwise. -/
def mapStore (r : Rune) (v : DataNode) : List (Rune × DataNode) → List (Rune × DataNode)
  | [] => [(r, v)]
  | (k, x) :: rest => if k == r then (r, v) :: rest else (k, x) :: mapStore r v rest

/-- The node `node` with the child under `r` set to `v`. -/
def DataNode.setChild (node : DataNode) (r : Rune) (v : DataNode) : DataNode :=
  DataNode.mk node.isRootNode node.isPathEnd node.Character (mapStore r v node.Children)

/-- Function `NewDataNode`: a fresh node without children, not a path end. -/
def NewDataNode (character : Rune) : DataNode :=
  DataNode.mk false false character []

/-- Function `NewDataRootNode`: a fresh root node. -/
def NewDataRootNode (character : Rune) : DataNode :=
  DataNode.mk true false character []

/-- Type `DataTrie`: the trie, held by its root. -/
structure DataTrie where
  Root : DataNode

/-- Function `NewDataTrie`: the empty trie, `NewDataRootNode(0)`. -/
def NewDataTrie : DataTrie := ⟨NewDataRootNode 0⟩

/-- The loop of `add` from the node `current` over the runes still to be read.
The node reached through a pointer in the source is rebuilt here and stored
back under its key. -/
def addFrom : List Rune → DataNode → DataNode
  | [], current => current
  | r :: rest, current =>
    let next := match current.child r with
      | some next => next
      | none => NewDataNode r
    -- `position == len(runes)-1`: this was the last rune of the word
    let next := if rest.isEmpty then next.markPathEnd else next
    current.setChild r (addFrom rest next)

/-- The loop of `del` from the node `current` over the runes still to be read. -/
def delFrom : List Rune → DataNode → DataNode
  | [], current => current
  | r :: rest, current =>
    match current.child r with
    | none => current
    | some next =>
      let next := if rest.isEmpty then next.SoftDel else next
      current.setChild r (delFrom rest next)

namespace DataTrie

/-- Method `add`: insert one word. -/
def add (tree : DataTrie) (word : List Rune) : DataTrie :=
  ⟨addFrom word tree.Root⟩

/-- Method `Add`: insert the words one after the other. -/
def Add (tree : DataTrie) (words : List (List Rune)) : DataTrie :=
  words.foldl add tree

/-- Method `del`: soft-delete one word. -/
def del (tree : DataTrie) (word : List Rune) : DataTrie :=
  ⟨delFrom word tree.Root⟩

/-- Method `Del`: soft-delete the words one after the other. -/
def Del (tree : DataTrie) (words : List (List Rune)) : DataTrie :=
  words.foldl del tree

end DataTrie

/-- What one pass through a loop body does: go on with a new state, leave the
function with a result, or fail on an index out of range. -/
inductive Step (σ ρ : Type) where
  | next (s : σ) : Step σ ρ
  | done (r : ρ) : Step σ ρ
  | fault : Step σ ρ

/-- Run a loop for at most `fuel` passes; `none` when the passes run out or an
index is out of range. -/
def iterate {σ ρ : Type} (step : σ → Step σ ρ) : Nat → σ → Option ρ
  | 0, _ => none
  | fuel + 1, s =>
    match step s with
    | Step.next s1 => iterate step fuel s1
    | Step.done r => some r
    | Step.fault => none

/-- Passes granted to a scan of a text of `n` code points. -/
def scanFuel (n : Nat) : Nat := (n + 1) * (n + 1)

/-- The Go slice expression `runes[lo:hi]`. -/
def slice (runes : List Rune) (lo hi : Nat) : List Rune :=
  (runes.drop lo).take (hi - lo)

/-- The cursors shared by the four scans: `parent`, `left`, `position`. -/
structure Cursor where
  parent : DataNode
  left : Nat
  position : Nat

/-- One pass of the loop of `Validate`. -/
def validateStep (root : DataNode) (runes : List Rune) (s : Cursor) :
    Step Cursor (Bool × List Rune) :=
  let length := runes.length
  if h : s.position < length then
    match s.parent.child runes[s.position] with
    | none =>
      -- parent = tree.Root; position = left; left++; continue (then position++)
      Step.next ⟨root, s.left + 1, s.left + 1⟩
    | some current =>
      if !current.IsPathEnd && s.position + 1 == length then
        Step.next ⟨root, s.left + 1, s.left + 1⟩
      else if current.IsPathEnd && s.left ≤ s.position then
        Step.done (false, slice runes s.left (s.position + 1))
      else
        Step.next ⟨current, s.left, s.position + 1⟩
  else
    Step.done (true, [])

namespace DataTrie

/-- Method `Validate`: the loop run from `parent = Root`, `left = 0`, `position = 0`. -/
def Validate (tree : DataTrie) (text : List Rune) : Option (Bool × List Rune) :=
  iterate (validateStep tree.Root text) (scanFuel text.length) ⟨tree.Root, 0, 0⟩

/-- Method `FindIn`: `Validate` with the flag negated. -/
def FindIn (tree : DataTrie) (text : List Rune) : Option (Bool × List Rune) :=
  (tree.Validate text).map (fun r => (!r.1, r.2))

end DataTrie

/-- The loop state of `FindAll`: the cursors and `matches`. -/
structure FindState where
  cur : Cursor
  found : List (List Rune)

/-- One pass of the scanning loop of `FindAll`. -/
def findAllStep (root : DataNode) (runes : List Rune) (s : FindState) :
    Step FindState (List (List Rune)) :=
  let length := runes.length
  let left := s.cur.left
  let position := s.cur.position
  if h : position < length then
    match s.cur.parent.child runes[position] with
    | none =>
      Step.next ⟨⟨root, left + 1, left + 1⟩, s.found⟩
    | some current =>
      let found :=
        if current.IsPathEnd && left ≤ position then
          s.found ++ [slice runes left (position + 1)]
        else s.found
      if position + 1 == length then
        Step.next ⟨⟨root, left + 1, left + 1⟩, found⟩
      else
        Step.next ⟨⟨current, left, position + 1⟩, found⟩
  else
    Step.done s.found

/-- The call `copy(matches[i:], matches[i+1:])`: every element after index `i` moves one
place down; the last element stays where it is. -/
def copyDown (xs : List (List Rune)) (i : Nat) : List (List Rune) :=
  xs.take i ++ xs.drop (i + 1) ++ (xs.drop (xs.length - 1)).take (xs.length - i)

/-- The loop state of the duplicate removal of `FindAll`: `matches`, `i`,
`count` and the keys of `set`. -/
structure DedupState where
  found : List (List Rune)
  i : Nat
  count : Nat
  seen : List (List Rune)

/-- One pass of the loop `for i < count` of `FindAll`. -/
def dedupStep (s : DedupState) : Step DedupState (List (List Rune)) :=
  if s.i < s.count then
    match s.found[s.i]? with
    | none => Step.fault
    | some m =>
      if s.seen.contains m then
        Step.next ⟨copyDown s.found s.i, s.i, s.count - 1, s.seen⟩
      else
        Step.next ⟨s.found, s.i + 1, s.count, m :: s.seen⟩
  else
    -- return matches[:count]
    Step.done (s.found.take s.count)

/-- The tail of `FindAll` after the scan: the removal of duplicates. -/
def dedupMatches (found : List (List Rune)) : Option (List (List Rune)) :=
  if 0 < found.length then
    iterate dedupStep (found.length + 1) ⟨found, 0, found.length, []⟩
  else
    some []

/-- The loop state of `Filter`: the cursors and `resultRunes`.  The field
`deleted` is a ghost variable, written and never read: the windows
`[left, position]` of the matches, for which the source appends nothing. -/
structure FilterState where
  cur : Cursor
  resultRunes : List Rune
  deleted : List (Nat × Nat)

/-- One pass of the loop of `Filter`; the loop is left with its last state. -/
def filterStep (root : DataNode) (runes : List Rune) (s : FilterState) :
    Step FilterState FilterState :=
  let length := runes.length
  let left := s.cur.left
  let position := s.cur.position
  if h : position < length then
    match s.cur.parent.child runes[position] with
    | none =>
      match runes[left]? with
      | none => Step.fault
      | some x => Step.next ⟨⟨root, left + 1, left + 1⟩, s.resultRunes ++ [x], s.deleted⟩
    | some current =>
      if !current.IsPathEnd && position + 1 == length then
        match runes[left]? with
        | none => Step.fault
        | some x => Step.next ⟨⟨root, left + 1, left + 1⟩, s.resultRunes ++ [x], s.deleted⟩
      else if current.IsPathEnd then
        -- left = position + 1; parent = tree.Root
        Step.next ⟨⟨root, position + 1, position + 1⟩, s.resultRunes,
          s.deleted ++ [(left, position)]⟩
      else
        Step.next ⟨⟨current, left, position + 1⟩, s.resultRunes, s.deleted⟩
  else
    Step.done s

/-- The statement after the loop of `Filter`:
`resultRunes = append(resultRunes, runes[left:]...)`. -/
def filterFinish (runes : List Rune) (s : FilterState) : Option (List Rune) :=
  if s.cur.left ≤ runes.length then some (s.resultRunes ++ runes.drop s.cur.left) else none

/-- The inner loop of `Replace`, `for i := left; i <= position; i++`, with
`todo` passes still to make. -/
def maskLoop (character : Rune) : Nat → Nat → List Rune → List Rune
  | 0, _, runes => runes
  | todo + 1, i, runes => maskLoop character todo (i + 1) (runes.set i character)

/-- The loop state of `Replace`: the cursors and the slice `runes`, which the
loop overwrites. -/
structure ReplaceState where
  cur : Cursor
  runes : List Rune

/-- One pass of the loop of `Replace`.  `length` is `len(runes)` as taken
before the loop; the loop condition reads `len(runes)` anew. -/
def replaceStep (root : DataNode) (character : Rune) (length : Nat) (s : ReplaceState) :
    Step ReplaceState (List Rune) :=
  let left := s.cur.left
  let position := s.cur.position
  if h : position < s.runes.length then
    match s.cur.parent.child s.runes[position] with
    | none =>
      Step.next ⟨⟨root, left + 1, left + 1⟩, s.runes⟩
    | some current =>
      if !current.IsPathEnd && position + 1 == length then
        Step.next ⟨⟨root, left + 1, left + 1⟩, s.runes⟩
      else
        let runes :=
          if current.IsPathEnd && left ≤ position then
            maskLoop character (position + 1 - left) left s.runes
          else s.runes
        Step.next ⟨⟨current, left, position + 1⟩, runes⟩
  else
    Step.done s.runes

/-- The replacement character U+FFFD, `utf8.RuneError`. -/
def RuneError : Rune := 0xFFFD

/-- The runes that have an encoding, as `utf8.ValidRune` tells them: the code
points up to U+10FFFF that are no surrogate halves (U+D800 to U+DFFF).  Every
rune of `[]rune(text)` is one of them. -/
def validRune (r : Rune) : Bool :=
  decide (r < 0xD800) || (decide (0xDFFF < r) && decide (r ≤ 0x10FFFF))

/-- The code point that Go's conversion to `string` writes for the rune `r`:
`r` itself when it is valid, U+FFFD otherwise.  A negative `int32`, which a
`Nat` does not hold, is converted like a rune above U+10FFFF. -/
def stringRune (r : Rune) : Rune :=
  if validRune r then r else RuneError

/-- The conversion `string(runes)`, read back as the code points of the
string: every rune is converted on its own. -/
def stringOfRunes (runes : List Rune) : List Rune :=
  runes.map stringRune

namespace DataTrie

/-- Method `FindAll`: the scan, then the removal of duplicates. -/
def FindAll (tree : DataTrie) (text : List Rune) : Option (List (List Rune)) :=
  (iterate (findAllStep tree.Root text) (scanFuel text.length)
    ⟨⟨tree.Root, 0, 0⟩, []⟩).bind dedupMatches

/-- The loop of `Filter`, run to its last state. -/
def filterRun (tree : DataTrie) (text : List Rune) : Option FilterState :=
  iterate (filterStep tree.Root text) (scanFuel text.length) ⟨⟨tree.Root, 0, 0⟩, [], []⟩

/-- Method `Filter`: the loop, then the statement after it. -/
def Filter (tree : DataTrie) (text : List Rune) : Option (List Rune) :=
  (tree.filterRun text).bind (filterFinish text)

/-- The loop of `Replace`, run on `runes = []rune(text)` to the slice it
leaves. -/
def replaceRun (tree : DataTrie) (text : List Rune) (character : Rune) : Option (List Rune) :=
  iterate (replaceStep tree.Root character text.length) (scanFuel text.length)
    ⟨⟨tree.Root, 0, 0⟩, text⟩

/-- Method `Replace`: the loop, then `return string(runes)`; the result is the
sequence of code points of the returned string. -/
def Replace (tree : DataTrie) (text : List Rune) (character : Rune) : Option (List Rune) :=
  (tree.replaceRun text character).map stringOfRunes

end DataTrie

/-- The dictionary {"bad", "\uFFFD"}. -/
def dictBadFFFD : DataTrie := NewDataTrie.Add [[98, 97, 100], [0xFFFD]]

/-- The dictionary {"bad"}. -/
def dictBadOnly : DataTrie := NewDataTrie.Add [[98, 97, 100]]

/-- The dictionary {"ab"}. -/
def dictAb : DataTrie := NewDataTrie.Add [[97, 98]]

/-- The text "a badword b". -/
def tABadwordB : List Rune := [97, 32, 98, 97, 100, 119, 111, 114, 100, 32, 98]

/-- The text "a word b". -/
def tAWordB : List Rune := [97, 32, 119, 111, 114, 100, 32, 98]

/-- The dictionary {"ab", "xc"}. -/
def dictAbXc : DataTrie := NewDataTrie.Add [[97, 98], [120, 99]]

/-- The word "bad". -/
def wBad : List Rune := [98, 97, 100]

/-- The word "word". -/
def wWord : List Rune := [119, 111, 114, 100]

/-- The word "badword". -/
def wBadword : List Rune := [98, 97, 100, 119, 111, 114, 100]

/-- The dictionary {"bad", "word", "badword"}. -/
def dictBad : DataTrie := NewDataTrie.Add [wBad, wWord, wBadword]

/-- The text "this is badword". -/
def tThisIsBadword : List Rune :=
  [116, 104, 105, 115, 32, 105, 115, 32, 98, 97, 100, 119, 111, 114, 100]

/-! ## Notions used by the statements -/

/-- The node at the end of the path `w` from `node`, when the path exists. -/
def DataNode.walk : DataNode → List Rune → Option DataNode
  | node, [] => some node
  | node, r :: rest =>
    match node.child r with
    | none => none
    | some next => next.walk rest

/-- The path `w` from `node` exists and ends at a node flagged as path end. -/
def DataNode.accepts (node : DataNode) (w : List Rune) : Bool :=
  match node.walk w with
  | some n => n.isPathEnd
  | none => false

/-- A live phrase of the dictionary: a non-empty sequence of code points whose
path from the root exists and ends at a node flagged as path end. -/
def Live (t : DataTrie) (w : List Rune) : Prop :=
  w ≠ [] ∧ t.Root.accepts w = true

/-- The length of the shortest non-empty beginning of `s` that `node` accepts. -/
def firstEnd : DataNode → List Rune → Option Nat
  | _, [] => none
  | node, r :: rest =>
    match node.child r with
    | none => none
    | some cur => if cur.isPathEnd then some 1 else (firstEnd cur rest).map (fun k => k + 1)

/-- What `Validate` answers on the text `s`, by recursion on `s`. -/
def validateSpec (root : DataNode) : List Rune → Bool × List Rune
  | [] => (true, [])
  | r :: rest =>
    match firstEnd root (r :: rest) with
    | some k => (false, (r :: rest).take k)
    | none => validateSpec root rest

/-- What the loop of `Validate` answers from the state `s`. -/
def validateFrom (root : DataNode) (runes : List Rune) (s : Cursor) : Bool × List Rune :=
  if s.position < runes.length then
    match firstEnd s.parent (runes.drop s.position) with
    | some k => (false, slice runes s.left (s.position + k))
    | none => validateSpec root (runes.drop (s.left + 1))
  else (true, [])

/-- The measure that every pass of a scan decreases. -/
def cursorMeasure (n : Nat) (c : Cursor) : Nat :=
  (n - c.left) * (n + 1) + (n - c.position)

/-- The lengths of all non-empty beginnings of `s` that `node` accepts, in
increasing order. -/
def allEnds : DataNode → List Rune → List Nat
  | _, [] => []
  | node, r :: rest =>
    match node.child r with
    | none => []
    | some cur =>
      (if cur.isPathEnd then [1] else []) ++ (allEnds cur rest).map (fun k => k + 1)

/-- What the scan of `FindAll` collects on the text `s`, by recursion on `s`. -/
def findSpec (root : DataNode) : List Rune → List (List Rune)
  | [] => []
  | r :: rest =>
    (allEnds root (r :: rest)).map (fun k => (r :: rest).take k) ++ findSpec root rest

/-- What the scan of `FindAll` has collected at its end, from the state `s`. -/
def findFrom (root : DataNode) (runes : List Rune) (s : FindState) : List (List Rune) :=
  if s.cur.position < runes.length then
    s.found ++
      (allEnds s.cur.parent (runes.drop s.cur.position)).map
        (fun k => slice runes s.cur.left (s.cur.position + k)) ++
      findSpec root (runes.drop (s.cur.left + 1))
  else s.found

/-- Stated from the claim: all windows `text[l..r]` that spell a live phrase,
by increasing start `l` and, for equal `l`, increasing end `r`. -/
def liveWindows (t : DataTrie) (text : List Rune) : List (List Rune) :=
  (List.range text.length).flatMap (fun l =>
    ((List.range (text.length - l)).map (fun d => slice text l (l + d + 1))).filter
      (fun w => t.Root.accepts w))

/-- Stated from the claim: the list with every later duplicate removed. -/
def keepFirst : List (List Rune) → List (List Rune)
  | [] => []
  | x :: xs => x :: (keepFirst xs).filter (fun y => y != x)

/-- The strings of `xs` not in `seen` and not earlier in `xs`. -/
def dedupAcc : List (List Rune) → List (List Rune) → List (List Rune)
  | _, [] => []
  | seen, x :: xs =>
    if seen.contains x then dedupAcc seen xs else x :: dedupAcc (x :: seen) xs

/-- What the duplicate removal of `FindAll` returns from the state `s`. -/
def dedupFrom (s : DedupState) : List (List Rune) :=
  s.found.take s.i ++ dedupAcc s.seen ((s.found.take s.count).drop s.i)

/-- Stated from the claim: the shortest live phrase that is a beginning of `s`. -/
def shortestLive (t : DataTrie) (s : List Rune) : Option (List Rune) :=
  ((List.range s.length).map (fun d => s.take (d + 1))).find? (fun w => t.Root.accepts w)

/-- Stated from the claim: greedy leftmost-shortest deletion `G`.  `G([]) = []`;
`G(s)` is `G` of `s` without its first `|w|` code points when `w` is the
shortest live phrase that is a beginning of `s`; and `G(c :: rest)` is
`c :: G(rest)` when no live phrase is a beginning of `c :: rest`. -/
def greedyDelete (t : DataTrie) : List Rune → List Rune
  | [] => []
  | c :: rest =>
    match h : shortestLive t (c :: rest) with
    | some w => greedyDelete t ((c :: rest).drop w.length)
    | none => c :: greedyDelete t rest
termination_by s => s.length
decreasing_by
  · have hm := List.mem_of_find?_eq_some h
    simp only [List.mem_map, List.mem_range] at hm
    obtain ⟨d, _, rfl⟩ := hm
    simp only [List.length_drop, List.length_take, List.length_cons]
    omega
  · simp

/-- The windows that greedy leftmost-shortest deletion removes from `s`, where
`s` begins at index `l` of the text. -/
def greedySpans (t : DataTrie) (l : Nat) : List Rune → List (Nat × Nat)
  | [] => []
  | c :: rest =>
    match h : shortestLive t (c :: rest) with
    | some w => (l, l + w.length - 1) :: greedySpans t (l + w.length) ((c :: rest).drop w.length)
    | none => greedySpans t (l + 1) rest
termination_by s => s.length
decreasing_by
  · have hm := List.mem_of_find?_eq_some h
    simp only [List.mem_map, List.mem_range] at hm
    obtain ⟨d, _, rfl⟩ := hm
    simp only [List.length_drop, List.length_take, List.length_cons]
    omega
  · simp

/-- What `Filter` returns from the loop state `s`. -/
def filterOut (t : DataTrie) (runes : List Rune) (s : FilterState) : List Rune :=
  if s.cur.position < runes.length then
    match firstEnd s.cur.parent (runes.drop s.cur.position) with
    | some k => s.resultRunes ++ greedyDelete t (runes.drop (s.cur.position + k))
    | none =>
      s.resultRunes ++ (runes.drop s.cur.left).take 1 ++ greedyDelete t (runes.drop (s.cur.left + 1))
  else s.resultRunes ++ runes.drop s.cur.left

/-- The windows that `Filter` has deleted at the end, from the loop state `s`. -/
def filterSpans (t : DataTrie) (runes : List Rune) (s : FilterState) : List (Nat × Nat) :=
  if s.cur.position < runes.length then
    match firstEnd s.cur.parent (runes.drop s.cur.position) with
    | some k =>
      s.deleted ++ (s.cur.left, s.cur.position + k - 1) ::
        greedySpans t (s.cur.position + k) (runes.drop (s.cur.position + k))
    | none => s.deleted ++ greedySpans t (s.cur.left + 1) (runes.drop (s.cur.left + 1))
  else s.deleted

/-- The length of the longest non-empty beginning of `s` that `node` accepts. -/
def lastEnd : DataNode → List Rune → Option Nat
  | _, [] => none
  | node, r :: rest =>
    match node.child r with
    | none => none
    | some cur =>
      match lastEnd cur rest with
      | some k => some (k + 1)
      | none => if cur.isPathEnd then some 1 else none

/-- The slice `buf` with the code points at the indices `lo ≤ i < hi` overwritten by `c`. -/
def maskTo (c : Rune) (buf : List Rune) (lo hi : Nat) : List Rune :=
  buf.take lo ++ List.replicate (hi - lo) c ++ buf.drop hi

/-- The slice that the loop of `Replace` leaves when it starts afresh at
`left = l` on the slice `buf`, with `m` start indices still to try. -/
def replaceSpec (root : DataNode) (c : Rune) : Nat → Nat → List Rune → List Rune
  | 0, _, buf => buf
  | m + 1, l, buf =>
    match lastEnd root (buf.drop l) with
    | some k =>
      if l + k = buf.length then maskTo c buf l (l + k)
      else replaceSpec root c m (l + 1) (maskTo c buf l (l + k))
    | none => replaceSpec root c m (l + 1) buf

/-- The slice that the loop of `Replace` leaves from the loop state `s`. -/
def replaceFrom (root : DataNode) (c : Rune) (s : ReplaceState) : List Rune :=
  if s.cur.position < s.runes.length then
    match lastEnd s.cur.parent (s.runes.drop s.cur.position) with
    | some k =>
      if s.cur.position + k = s.runes.length then
        maskTo c s.runes s.cur.left (s.cur.position + k)
      else
        replaceSpec root c (s.runes.length - (s.cur.left + 1)) (s.cur.left + 1)
          (maskTo c s.runes s.cur.left (s.cur.position + k))
    | none =>
      replaceSpec root c (s.runes.length - (s.cur.left + 1)) (s.cur.left + 1) s.runes
  else s.runes

/-- Stated from the claim: wherever the output of `Replace` differs from the
text, the new value is `c` and the index lies inside an occurrence of a live
phrase in the original text. -/
def ReplaceFrame (t : DataTrie) (text : List Rune) (c : Rune) : Prop :=
  ∃ out, t.Replace text c = some out ∧
    ∀ i, out[i]? ≠ text[i]? →
      out[i]? = some c ∧
        ∃ l w, Live t w ∧ w <+: text.drop l ∧ l ≤ i ∧ i < l + w.length

/-- The tries built from `NewDataTrie` by single insertions and deletions. -/
inductive Built : DataTrie → Prop where
  | new : Built NewDataTrie
  | add (t : DataTrie) (w : List Rune) : Built t → Built (t.add w)
  | del (t : DataTrie) (w : List Rune) : Built t → Built (t.del w)

/-- The fields of a node other than its children: `isRootNode`, `isPathEnd`,
`Character`. -/
def DataNode.info (n : DataNode) : Bool × Bool × Rune :=
  (n.isRootNode, n.isPathEnd, n.Character)

/-- The fields of the node at the end of the path `w` from `node`, when the
path exists. -/
def DataNode.infoAt (node : DataNode) (w : List Rune) : Option (Bool × Bool × Rune) :=
  (node.walk w).map DataNode.info

/-- One dictionary operation on a single phrase: `Add(w)` or `Del(w)`. -/
inductive DictOp where
  | add (w : List Rune) : DictOp
  | del (w : List Rune) : DictOp

/-- The phrase an operation is called with. -/
def DictOp.arg : DictOp → List Rune
  | DictOp.add w => w
  | DictOp.del w => w

/-- The trie after one operation. -/
def DictOp.apply (t : DataTrie) : DictOp → DataTrie
  | DictOp.add w => t.Add [w]
  | DictOp.del w => t.Del [w]

/-- The trie after a sequence of operations, the first of the list first. -/
def runOps (t : DataTrie) (ops : List DictOp) : DataTrie :=
  ops.foldl DictOp.apply t

/-- Stated from the claim: two tries are the same trie when they have the same
root paths and the node at the end of every path has the same fields in both,
the path-end flag among them. -/
def SameTrie (t1 t2 : DataTrie) : Prop :=
  ∀ w, (t1.Root.walk w).map DataNode.info = (t2.Root.walk w).map DataNode.info

/-- The loop states at the head of the successive passes of a run of at most
`fuel` passes, the state in which the loop is left included. -/
def passes {σ ρ : Type} (step : σ → Step σ ρ) : Nat → σ → List σ
  | 0, _ => []
  | fuel + 1, s =>
    s :: (match step s with
      | Step.next s1 => passes step fuel s1
      | Step.done _ => []
      | Step.fault => [])

/-- The run is complete: its last state is one whose pass leaves the function
with a result, so the passes did not run out and no index was out of range. -/
def EndsDone {σ ρ : Type} (step : σ → Step σ ρ) (fuel : Nat) (s : σ) : Prop :=
  ∃ last r, (passes step fuel s).getLast? = some last ∧ step last = Step.done r

namespace DataTrie

/-- The cursors at the head of every pass of the loop of `Validate`. -/
def validatePasses (tree : DataTrie) (text : List Rune) : List Cursor :=
  passes (validateStep tree.Root text) (scanFuel text.length) ⟨tree.Root, 0, 0⟩

/-- The cursors at the head of every pass of the scanning loop of `FindAll`. -/
def findAllPasses (tree : DataTrie) (text : List Rune) : List Cursor :=
  (passes (findAllStep tree.Root text) (scanFuel text.length)
    ⟨⟨tree.Root, 0, 0⟩, []⟩).map (fun s => s.cur)

/-- The cursors at the head of every pass of the loop of `Filter`. -/
def filterPasses (tree : DataTrie) (text : List Rune) : List Cursor :=
  (passes (filterStep tree.Root text) (scanFuel text.length)
    ⟨⟨tree.Root, 0, 0⟩, [], []⟩).map (fun s => s.cur)

/-- The cursors at the head of every pass of the loop of `Replace`. -/
def replacePasses (tree : DataTrie) (text : List Rune) (character : Rune) : List Cursor :=
  (passes (replaceStep tree.Root character text.length) (scanFuel text.length)
    ⟨⟨tree.Root, 0, 0⟩, text⟩).map (fun s => s.cur)

end DataTrie

/-- One pass from the cursors `a` to the cursors `b` on a text of `n` code
points: the body ran (`position < n`) and either reset (`position = left;
left++`), or went on to the next code point, or, in `Filter`, jumped past a
match (`left = position + 1`); the trailing `position++` is included. -/
def CursorStep (n : Nat) (a b : Cursor) : Prop :=
  a.position < n ∧
    ((b.left = a.left + 1 ∧ b.position = a.left + 1) ∨
      (b.left = a.left ∧ b.position = a.position + 1) ∨
      (b.left = a.position + 1 ∧ b.position = a.position + 1))

/-- Stated from the claim: from one pass to the next `left` does not decrease,
and when `position` does not move forward `left` has grown by exactly one. -/
def LeftMoves (a b : Cursor) : Prop :=
  a.left ≤ b.left ∧ (b.position ≤ a.position → b.left = a.left + 1)

/-- The number of passes of a run after which `position` has not moved
forward: the backward resets. -/
def backwardResets : List Cursor → Nat
  | a :: b :: rest => (if b.position ≤ a.position then 1 else 0) + backwardResets (b :: rest)
  | _ => 0

/-- The number of passes of a run after which `left` is larger than before;
every reset is one of them. -/
def leftGrowths : List Cursor → Nat
  | a :: b :: rest => (if a.left < b.left then 1 else 0) + leftGrowths (b :: rest)
  | _ => 0

/-- Stated from the claim, for the cursors `tr` of a run on a text of `n` code
points: `left` never decreases, a pass after which `position` has not moved
forward has increased `left` by exactly one, there are at most `n` such passes,
and at most `n` passes in which `left` grows at all. -/
def OrderlyRun (n : Nat) (tr : List Cursor) : Prop :=
  List.Chain' LeftMoves tr ∧ backwardResets tr ≤ n ∧ leftGrowths tr ≤ n

/-- Stated from the claim, for the cursors `tr` of a run on a text of `n` code
points: at the head of every pass `left ≤ position ≤ n`, and at the head of
every pass that another pass follows `position < n`. -/
def BoundedRun (n : Nat) (tr : List Cursor) : Prop :=
  (∀ s ∈ tr, s.left ≤ s.position ∧ s.position ≤ n) ∧ ∀ s ∈ tr.dropLast, s.position < n

/-- Stated from the claim, for one pass of a loop on a text of `n` code points
with the cursors `c` at its head.  Either the pass is a loop iteration and
`left ≤ position < n`; or `position = n` and `leaves` holds, which is given as
the statement that the pass is the test of the loop condition that ends the
loop, where no body runs and nothing is indexed. -/
def PassInRange (n : Nat) (c : Cursor) (leaves : Prop) : Prop :=
  (c.left ≤ c.position ∧ c.position < n) ∨ (c.position = n ∧ leaves)

/-! ## The loop runner -/

theorem iterate_spec {σ ρ : Type} (step : σ → Step σ ρ) (Inv : σ → Prop) (μ : σ → Nat)
    (P : σ → ρ → Prop)
    (hnext : ∀ s s1, Inv s → step s = Step.next s1 →
      Inv s1 ∧ μ s1 < μ s ∧ ∀ r, P s1 r → P s r)
    (hdone : ∀ s r, Inv s → step s = Step.done r → P s r)
    (hfault : ∀ s, Inv s → step s ≠ Step.fault) :
    ∀ fuel s, Inv s → μ s < fuel → ∃ r, iterate step fuel s = some r ∧ P s r := by
  intro fuel
  induction fuel with
  | zero => intro s _ h; omega
  | succ fuel ih =>
    intro s hs hμ
    cases hst : step s with
    | next s1 =>
      obtain ⟨h1, h2, h3⟩ := hnext s s1 hs hst
      obtain ⟨r, hr, hp⟩ := ih s1 h1 (by omega)
      exact ⟨r, by simp [iterate, hst, hr], h3 r hp⟩
    | done r => exact ⟨r, by simp [iterate, hst], hdone s r hs hst⟩
    | fault => exact absurd hst (hfault s hs)

theorem measure_reset (n l p : Nat) (par par1 : DataNode) (h1 : l ≤ p) (h2 : p < n) :
    cursorMeasure n ⟨par1, l + 1, l + 1⟩ < cursorMeasure n ⟨par, l, p⟩ := by
  simp only [cursorMeasure]
  have h : (n - l) * (n + 1) = (n - (l + 1)) * (n + 1) + (n + 1) := by
    rw [← Nat.succ_mul]; congr 1; omega
  omega

theorem measure_advance (n l p : Nat) (par par1 : DataNode) (h2 : p < n) :
    cursorMeasure n ⟨par1, l, p + 1⟩ < cursorMeasure n ⟨par, l, p⟩ := by
  simp only [cursorMeasure]
  omega

theorem measure_jump (n l p : Nat) (par par1 : DataNode) (h1 : l ≤ p) (h2 : p < n) :
    cursorMeasure n ⟨par1, p + 1, p + 1⟩ < cursorMeasure n ⟨par, l, p⟩ := by
  simp only [cursorMeasure]
  have h : (n - p) * (n + 1) = (n - (p + 1)) * (n + 1) + (n + 1) := by
    rw [← Nat.succ_mul]; congr 1; omega
  have h3 : (n - p) * (n + 1) ≤ (n - l) * (n + 1) :=
    Nat.mul_le_mul_right _ (by omega)
  omega

theorem measure_init (n : Nat) (par : DataNode) :
    cursorMeasure n ⟨par, 0, 0⟩ < scanFuel n := by
  simp only [cursorMeasure, scanFuel, Nat.sub_zero]
  have h : (n + 1) * (n + 1) = n * (n + 1) + (n + 1) := Nat.succ_mul _ _
  omega

/-! ## Validate -/

theorem validateSpec_drop (root : DataNode) (runes : List Rune) (l : Nat) :
    validateSpec root (runes.drop l) = validateFrom root runes ⟨root, l, l⟩ := by
  by_cases h : l < runes.length
  · simp only [validateFrom, h, if_true]
    rw [List.drop_eq_getElem_cons h, validateSpec]
    rw [← List.drop_eq_getElem_cons h]
    cases firstEnd root (List.drop l runes) with
    | none => simp
    | some k => simp [slice]
  · simp only [validateFrom, h, if_false]
    rw [List.drop_eq_nil_of_le (by omega), validateSpec]

theorem validate_next (root : DataNode) (runes : List Rune) (s s1 : Cursor)
    (hs : s.left ≤ s.position) (hst : validateStep root runes s = Step.next s1) :
    s1.left ≤ s1.position ∧
      cursorMeasure runes.length s1 < cursorMeasure runes.length s ∧
      validateFrom root runes s1 = validateFrom root runes s := by
  obtain ⟨par, l, p⟩ := s
  simp only at hs
  unfold validateStep at hst
  simp only at hst
  split at hst
  next h =>
    have hd := List.drop_eq_getElem_cons h
    split at hst
    next hc =>
      cases hst
      refine ⟨le_refl _, measure_reset _ _ _ _ _ hs h, ?_⟩
      rw [← validateSpec_drop]
      simp only [validateFrom, h, if_true]
      rw [hd]
      simp [firstEnd, hc]
    next current hc =>
      split at hst
      next hcond =>
        cases hst
        refine ⟨le_refl _, measure_reset _ _ _ _ _ hs h, ?_⟩
        rw [← validateSpec_drop]
        simp only [Bool.and_eq_true, Bool.not_eq_true', beq_iff_eq, DataNode.IsPathEnd] at hcond
        have hnil : List.drop (p + 1) runes = [] := List.drop_eq_nil_of_le (by omega)
        simp only [validateFrom, h, if_true]
        rw [hd, hnil]
        simp [firstEnd, hc, hcond.1]
      next hcond =>
        split at hst
        next hcond2 => cases hst
        next hcond2 =>
          cases hst
          simp only [Bool.and_eq_true, Bool.not_eq_true', beq_iff_eq, DataNode.IsPathEnd,
            decide_eq_true_eq, not_and] at hcond hcond2
          have he : current.isPathEnd = false := by
            cases hb : current.isPathEnd with
            | false => rfl
            | true => exact absurd hs (hcond2 hb)
          have hp : p + 1 < runes.length := by
            have := hcond he
            omega
          refine ⟨by simp only; omega, measure_advance _ _ _ _ _ h, ?_⟩
          simp only [validateFrom, h, hp, if_true]
          rw [hd]
          simp only [firstEnd, hc, he]
          cases firstEnd current (List.drop (p + 1) runes) with
          | none => simp
          | some k => simp [Nat.add_assoc, Nat.add_comm 1 k]
  next h => cases hst

theorem validate_done (root : DataNode) (runes : List Rune) (s : Cursor) (r : Bool × List Rune)
    (hst : validateStep root runes s = Step.done r) :
    r = validateFrom root runes s := by
  obtain ⟨par, l, p⟩ := s
  unfold validateStep at hst
  simp only at hst
  split at hst
  next h =>
    have hd := List.drop_eq_getElem_cons h
    split at hst
    next hc => cases hst
    next current hc =>
      split at hst
      next hcond => cases hst
      next hcond =>
        split at hst
        next hcond2 =>
          cases hst
          simp only [Bool.and_eq_true, DataNode.IsPathEnd, decide_eq_true_eq] at hcond2
          simp only [validateFrom, h, if_true]
          rw [hd]
          simp [firstEnd, hc, hcond2.1]
        next hcond2 => cases hst
  next h =>
    cases hst
    simp [validateFrom, h]

theorem validate_fault (root : DataNode) (runes : List Rune) (s : Cursor) :
    validateStep root runes s ≠ Step.fault := by
  unfold validateStep
  simp only
  split
  · split
    · simp
    · split
      · simp
      · split <;> simp
  · simp

theorem Validate_eq_spec (t : DataTrie) (text : List Rune) :
    t.Validate text = some (validateSpec t.Root text) := by
  have h := iterate_spec (validateStep t.Root text) (fun s => s.left ≤ s.position)
    (cursorMeasure text.length) (fun s r => r = validateFrom t.Root text s)
    (fun s s1 hs hst => by
      obtain ⟨h1, h2, h3⟩ := validate_next t.Root text s s1 hs hst
      exact ⟨h1, h2, fun r hr => hr.trans h3⟩)
    (fun s r _ hst => validate_done t.Root text s r hst)
    (fun s _ => validate_fault t.Root text s)
    (scanFuel text.length) ⟨t.Root, 0, 0⟩ (le_refl _) (measure_init _ _)
  obtain ⟨r, hr, hp⟩ := h
  rw [DataTrie.Validate, hr, hp, ← validateSpec_drop]
  simp

theorem accepts_nil (node : DataNode) : node.accepts [] = node.isPathEnd := by
  simp [DataNode.accepts, DataNode.walk]

theorem accepts_cons (node : DataNode) (r : Rune) (w : List Rune) :
    node.accepts (r :: w) = match node.child r with
      | none => false
      | some cur => cur.accepts w := by
  simp only [DataNode.accepts, DataNode.walk]
  cases node.child r <;> rfl

theorem infix_iff_prefix_drop (w text : List Rune) :
    w <:+: text ↔ ∃ l, w <+: text.drop l := by
  constructor
  · rintro ⟨a, b, rfl⟩
    refine ⟨a.length, ?_⟩
    simp [List.append_assoc]
  · rintro ⟨l, h⟩
    exact h.isInfix.trans (List.drop_suffix l text).isInfix

theorem firstEnd_some (node : DataNode) (s : List Rune) (k : Nat)
    (h : firstEnd node s = some k) :
    1 ≤ k ∧ k ≤ s.length ∧ node.accepts (s.take k) = true ∧
      ∀ w, w ≠ [] → w <+: s → node.accepts w = true → k ≤ w.length := by
  induction s generalizing node k with
  | nil => simp [firstEnd] at h
  | cons r rest ih =>
    simp only [firstEnd] at h
    cases hc : node.child r with
    | none => simp [hc] at h
    | some cur =>
      simp only [hc] at h
      cases he : cur.isPathEnd with
      | true =>
        simp only [he, if_true, Option.some.injEq] at h
        subst h
        refine ⟨le_refl _, by simp, ?_, ?_⟩
        · simp [accepts_cons, hc, accepts_nil, he]
        · intro w hw _ _
          cases w with
          | nil => exact absurd rfl hw
          | cons a w1 => simp
      | false =>
        simp only [he, Bool.false_eq_true, if_false, Option.map_eq_some'] at h
        obtain ⟨k1, hk1, rfl⟩ := h
        obtain ⟨h1, h2, h3, h4⟩ := ih cur k1 hk1
        refine ⟨by omega, by simp; omega, ?_, ?_⟩
        · simp [accepts_cons, hc, h3]
        · intro w hw hpre hacc
          cases w with
          | nil => exact absurd rfl hw
          | cons a w1 =>
            obtain ⟨rfl, hpre1⟩ := List.cons_prefix_cons.mp hpre
            simp only [accepts_cons, hc] at hacc
            cases w1 with
            | nil => simp [accepts_nil, he] at hacc
            | cons b w2 =>
              have := h4 (b :: w2) (by simp) hpre1 hacc
              simp only [List.length_cons] at this ⊢
              omega

theorem firstEnd_none (node : DataNode) (s : List Rune) (h : firstEnd node s = none) :
    ∀ w, w ≠ [] → w <+: s → node.accepts w = false := by
  induction s generalizing node with
  | nil =>
    intro w hw hpre
    exact absurd (List.prefix_nil.mp hpre) hw
  | cons r rest ih =>
    intro w hw hpre
    cases w with
    | nil => exact absurd rfl hw
    | cons a w1 =>
      obtain ⟨rfl, hpre1⟩ := List.cons_prefix_cons.mp hpre
      simp only [firstEnd] at h
      cases hc : node.child a with
      | none => simp [accepts_cons, hc]
      | some cur =>
        simp only [hc] at h
        cases he : cur.isPathEnd with
        | true => simp [he] at h
        | false =>
          simp only [he, Bool.false_eq_true, if_false, Option.map_eq_none'] at h
          simp only [accepts_cons, hc]
          cases w1 with
          | nil => simp [accepts_nil, he]
          | cons b w2 => exact ih cur h (b :: w2) (by simp) hpre1

theorem validateSpec_cases (t : DataTrie) (s : List Rune) :
    (validateSpec t.Root s = (true, []) ∧ ∀ l w, Live t w → ¬ w <+: s.drop l) ∨
    (∃ l w, validateSpec t.Root s = (false, w) ∧ Live t w ∧ w <+: s.drop l ∧
      (∀ l1 w1, l1 < l → Live t w1 → ¬ w1 <+: s.drop l1) ∧
      (∀ w1, Live t w1 → w1 <+: s.drop l → w.length ≤ w1.length)) := by
  induction s with
  | nil =>
    left
    refine ⟨rfl, ?_⟩
    intro l w hw hpre
    simp only [List.drop_nil, List.prefix_nil] at hpre
    exact hw.1 hpre
  | cons r rest ih =>
    simp only [validateSpec]
    cases hf : firstEnd t.Root (r :: rest) with
    | some k =>
      right
      obtain ⟨h1, h2, h3, h4⟩ := firstEnd_some _ _ _ hf
      refine ⟨0, (r :: rest).take k, rfl, ⟨?_, h3⟩, ?_, ?_, ?_⟩
      · intro hnil
        have := congrArg List.length hnil
        simp only [List.length_take, List.length_nil] at this
        omega
      · simpa using List.take_prefix k (r :: rest)
      · intro l1 w1 hl
        omega
      · intro w1 hw1 hpre
        have := h4 w1 hw1.1 (by simpa using hpre) hw1.2
        simp only [List.length_take]
        omega
    | none =>
      have hno := firstEnd_none _ _ hf
      rcases ih with ⟨h1, h2⟩ | ⟨l, w, h1, h2, h3, h4, h5⟩
      · left
        refine ⟨h1, ?_⟩
        intro l w hw hpre
        cases l with
        | zero =>
          have := hno w hw.1 (by simpa using hpre)
          rw [hw.2] at this
          cases this
        | succ l1 => exact h2 l1 w hw (by simpa using hpre)
      · right
        refine ⟨l + 1, w, h1, h2, by simpa using h3, ?_, ?_⟩
        · intro l1 w1 hl hw1 hpre
          cases l1 with
          | zero =>
            have := hno w1 hw1.1 (by simpa using hpre)
            rw [hw1.2] at this
            cases this
          | succ l2 => exact h4 l2 w1 (by omega) hw1 (by simpa using hpre)
        · intro w1 hw1 hpre
          exact h5 w1 hw1 (by simpa using hpre)

theorem Validate_cases (t : DataTrie) (text : List Rune) :
    (t.Validate text = some (true, []) ↔ ¬ ∃ w, Live t w ∧ w <:+: text) ∧
    ((t.Validate text = some (true, []) ∧ ¬ ∃ w, Live t w ∧ w <:+: text) ∨
      ∃ l w, t.Validate text = some (false, w) ∧ Live t w ∧ w <+: text.drop l ∧
        (∀ l1 w1, l1 < l → Live t w1 → ¬ w1 <+: text.drop l1) ∧
        (∀ w1, Live t w1 → w1 <+: text.drop l → w.length ≤ w1.length)) := by
  rw [Validate_eq_spec]
  rcases validateSpec_cases t text with ⟨h1, h2⟩ | ⟨l, w, h1, h2, h3, h4, h5⟩
  · have hclean : ¬ ∃ w, Live t w ∧ w <:+: text := by
      rintro ⟨w, hw, hin⟩
      obtain ⟨l, hl⟩ := (infix_iff_prefix_drop w text).mp hin
      exact h2 l w hw hl
    exact ⟨⟨fun _ => hclean, fun _ => by rw [h1]⟩, Or.inl ⟨by rw [h1], hclean⟩⟩
  · have hocc : ∃ w, Live t w ∧ w <:+: text :=
      ⟨w, h2, (infix_iff_prefix_drop w text).mpr ⟨l, h3⟩⟩
    refine ⟨⟨fun h => ?_, fun h => absurd hocc h⟩, Or.inr ⟨l, w, by rw [h1], h2, h3, h4, h5⟩⟩
    rw [h1] at h
    simp at h

/-- C1: `Validate` is exact.  It answers `(true, "")` exactly when no live
phrase occurs in the text as a run of consecutive code points; otherwise it
answers `(false, w)` where `w` is a live phrase at the smallest start index `l`
at which a live phrase begins, and the shortest of the live phrases beginning
there.  With the dictionary {"bad", "word", "badword"} the text
"this is badword" gives `(false, "bad")`. -/
theorem Validate_exact :
    (∀ (t : DataTrie) (text : List Rune),
      (t.Validate text = some (true, []) ↔ ¬ ∃ w, Live t w ∧ w <:+: text) ∧
      ((t.Validate text = some (true, []) ∧ ¬ ∃ w, Live t w ∧ w <:+: text) ∨
        ∃ l w, t.Validate text = some (false, w) ∧ Live t w ∧ w <+: text.drop l ∧
          (∀ l1 w1, l1 < l → Live t w1 → ¬ w1 <+: text.drop l1) ∧
          (∀ w1, Live t w1 → w1 <+: text.drop l → w.length ≤ w1.length))) ∧
    dictBad.Validate tThisIsBadword = some (false, wBad) :=
  ⟨Validate_cases, by decide⟩

/-! ## FindAll -/

theorem findSpec_drop (root : DataNode) (runes : List Rune) (l : Nat) (acc : List (List Rune)) :
    acc ++ findSpec root (runes.drop l) = findFrom root runes ⟨⟨root, l, l⟩, acc⟩ := by
  by_cases h : l < runes.length
  · simp only [findFrom, h, if_true]
    rw [List.drop_eq_getElem_cons h, findSpec]
    rw [← List.drop_eq_getElem_cons h]
    simp [slice, List.append_assoc]
  · simp only [findFrom, h, if_false]
    rw [List.drop_eq_nil_of_le (by omega), findSpec]
    simp

theorem findAll_next (root : DataNode) (runes : List Rune) (s s1 : FindState)
    (hs : s.cur.left ≤ s.cur.position) (hst : findAllStep root runes s = Step.next s1) :
    s1.cur.left ≤ s1.cur.position ∧
      cursorMeasure runes.length s1.cur < cursorMeasure runes.length s.cur ∧
      findFrom root runes s1 = findFrom root runes s := by
  obtain ⟨⟨par, l, p⟩, acc⟩ := s
  simp only at hs
  unfold findAllStep at hst
  simp only at hst
  split at hst
  next h =>
    have hd := List.drop_eq_getElem_cons h
    split at hst
    next hc =>
      cases hst
      refine ⟨le_refl _, measure_reset _ _ _ _ _ hs h, ?_⟩
      rw [← findSpec_drop]
      simp only [findFrom, h, if_true]
      rw [hd]
      simp [allEnds, hc]
    next current hc =>
      split at hst
      next hcond =>
        cases hst
        refine ⟨le_refl _, measure_reset _ _ _ _ _ hs h, ?_⟩
        rw [← findSpec_drop]
        simp only [beq_iff_eq] at hcond
        have hnil : List.drop (p + 1) runes = [] := List.drop_eq_nil_of_le (by omega)
        simp only [findFrom, h, if_true]
        rw [hd, hnil]
        cases he : current.isPathEnd <;>
          simp [allEnds, hc, he, DataNode.IsPathEnd, hs]
      next hcond =>
        cases hst
        simp only [beq_iff_eq] at hcond
        have hp : p + 1 < runes.length := by omega
        refine ⟨by simp only; omega, measure_advance _ _ _ _ _ h, ?_⟩
        simp only [findFrom, h, hp, if_true]
        rw [hd]
        cases he : current.isPathEnd <;>
          simp [allEnds, hc, he, DataNode.IsPathEnd, hs, List.append_assoc,
            Nat.add_assoc, Nat.add_comm 1, Function.comp_def]
  next h => cases hst

theorem findAll_done (root : DataNode) (runes : List Rune) (s : FindState)
    (r : List (List Rune)) (hst : findAllStep root runes s = Step.done r) :
    r = findFrom root runes s := by
  obtain ⟨⟨par, l, p⟩, acc⟩ := s
  unfold findAllStep at hst
  simp only at hst
  split at hst
  next h =>
    split at hst
    next hc => cases hst
    next current hc => split at hst <;> cases hst
  next h =>
    cases hst
    simp [findFrom, h]

theorem findAll_fault (root : DataNode) (runes : List Rune) (s : FindState) :
    findAllStep root runes s ≠ Step.fault := by
  unfold findAllStep
  simp only
  split
  · split
    · simp
    · split <;> simp
  · simp

theorem findAll_scan (t : DataTrie) (text : List Rune) :
    iterate (findAllStep t.Root text) (scanFuel text.length) ⟨⟨t.Root, 0, 0⟩, []⟩
      = some (findSpec t.Root text) := by
  have h := iterate_spec (findAllStep t.Root text) (fun s => s.cur.left ≤ s.cur.position)
    (fun s => cursorMeasure text.length s.cur) (fun s r => r = findFrom t.Root text s)
    (fun s s1 hs hst => by
      obtain ⟨h1, h2, h3⟩ := findAll_next t.Root text s s1 hs hst
      exact ⟨h1, h2, fun r hr => hr.trans h3⟩)
    (fun s r _ hst => findAll_done t.Root text s r hst)
    (fun s _ => findAll_fault t.Root text s)
    (scanFuel text.length) ⟨⟨t.Root, 0, 0⟩, []⟩ (le_refl _) (measure_init _ _)
  obtain ⟨r, hr, hp⟩ := h
  rw [hr, hp, ← findSpec_drop]
  simp

theorem copyDown_length (xs : List (List Rune)) (i : Nat) (hi : i < xs.length) :
    (copyDown xs i).length = xs.length := by
  simp only [copyDown, List.length_append, List.length_take, List.length_drop]
  omega

theorem copyDown_take (xs : List (List Rune)) (i k : Nat) (hk : k + 1 ≤ xs.length) :
    (copyDown xs i).take k = (xs.take i ++ xs.drop (i + 1)).take k := by
  unfold copyDown
  by_cases hi : i < xs.length
  · rw [List.take_append_of_le_length]
    simp only [List.length_append, List.length_take, List.length_drop]
    omega
  · rw [List.drop_eq_nil_of_le (by omega), List.take_of_length_le (by omega : xs.length ≤ i)]
    simp only [List.append_nil]
    rw [List.take_append_of_le_length (by omega)]

theorem dedup_next (s s1 : DedupState) (hs : s.i ≤ s.count ∧ s.count ≤ s.found.length)
    (hst : dedupStep s = Step.next s1) :
    (s1.i ≤ s1.count ∧ s1.count ≤ s1.found.length) ∧
      s1.count - s1.i < s.count - s.i ∧ dedupFrom s1 = dedupFrom s := by
  obtain ⟨found, i, count, seen⟩ := s
  simp only at hs
  unfold dedupStep at hst
  simp only at hst
  split at hst
  next h =>
    have hi : i < found.length := by omega
    have hget : found[i]? = some found[i] := List.getElem?_eq_getElem hi
    rw [hget] at hst
    simp only at hst
    have hrest : (found.take count).drop i = found[i] :: (found.take count).drop (i + 1) := by
      have hlt : i < (found.take count).length := by
        simp only [List.length_take]; omega
      rw [List.drop_eq_getElem_cons hlt]
      simp
    split at hst
    next hc =>
      cases hst
      refine ⟨⟨by simp only; omega, ?_⟩, by simp only; omega, ?_⟩
      · simp only [copyDown_length found i hi]; omega
      · simp only [dedupFrom]
        rw [hrest, dedupAcc]
        simp only [hc, if_true]
        rw [copyDown_take found i i (by omega), copyDown_take found i (count - 1) (by omega)]
        have e1 : (found.take i ++ found.drop (i + 1)).take i = found.take i := by
          rw [List.take_append_of_le_length (by simp; omega)]
          simp [List.take_take]
        have e2 : ((found.take i ++ found.drop (i + 1)).take (count - 1)).drop i
            = (found.take count).drop (i + 1) := by
          rw [List.take_append_eq_append_take]
          simp only [List.take_take, List.length_take]
          rw [List.drop_append_eq_append_drop]
          have hl : (List.take (min (count - 1) i) found).length = i := by
            simp only [List.length_take]; omega
          rw [List.drop_of_length_le (by omega)]
          simp only [List.length_take, List.nil_append]
          rw [List.drop_take]
          have : i - min (min (count - 1) i) found.length = 0 := by omega
          rw [this, List.drop_zero]
          rw [List.take_drop]
          congr 2
          omega
        rw [e1, e2]
    next hc =>
      cases hst
      refine ⟨⟨by simp only; omega, hs.2⟩, by simp only; omega, ?_⟩
      simp only [dedupFrom]
      rw [hrest, dedupAcc]
      simp only [hc, Bool.false_eq_true, if_false]
      rw [List.take_succ, hget]
      simp only [Option.toList, List.append_assoc, List.singleton_append]
  next h => cases hst

theorem dedup_done (s : DedupState) (r : List (List Rune)) (hs : s.i ≤ s.count)
    (hst : dedupStep s = Step.done r) : r = dedupFrom s := by
  obtain ⟨found, i, count, seen⟩ := s
  simp only at hs
  unfold dedupStep at hst
  simp only at hst
  split at hst
  next h =>
    split at hst
    · cases hst
    · split at hst <;> cases hst
  next h =>
    cases hst
    have : i = count := by omega
    subst this
    simp [dedupFrom, dedupAcc, List.drop_take]

theorem dedup_fault (s : DedupState) (hs : s.count ≤ s.found.length) :
    dedupStep s ≠ Step.fault := by
  obtain ⟨found, i, count, seen⟩ := s
  simp only at hs
  unfold dedupStep
  simp only
  split
  next h =>
    rw [List.getElem?_eq_getElem (by omega)]
    simp only
    split <;> simp
  next h => simp

theorem dedupAcc_eq (seen xs : List (List Rune)) :
    dedupAcc seen xs = (keepFirst xs).filter (fun y => !seen.contains y) := by
  induction xs generalizing seen with
  | nil => simp [dedupAcc, keepFirst]
  | cons x xs ih =>
    simp only [dedupAcc, keepFirst]
    by_cases hc : seen.contains x = true
    · simp only [hc, if_true]
      rw [ih, List.filter_cons]
      simp only [hc, Bool.not_true, Bool.false_eq_true, if_false, List.filter_filter]
      apply List.filter_congr
      intro y _
      by_cases hy : y = x
      · subst hy; simpa using hc
      · simp [hy]
    · simp only [Bool.not_eq_true] at hc
      simp only [hc, Bool.false_eq_true, if_false]
      rw [ih, List.filter_cons]
      simp only [hc, Bool.not_false, if_true, List.filter_filter]
      congr 1
      apply List.filter_congr
      intro y _
      by_cases hy : y = x
      · subst hy; simp
      · simp [hy, List.contains_cons]

theorem dedupMatches_eq (found : List (List Rune)) :
    dedupMatches found = some (keepFirst found) := by
  unfold dedupMatches
  split
  next hpos =>
    have h := iterate_spec dedupStep (fun s => s.i ≤ s.count ∧ s.count ≤ s.found.length)
      (fun s => s.count - s.i) (fun s r => r = dedupFrom s)
      (fun s s1 hs hst => by
        obtain ⟨h1, h2, h3⟩ := dedup_next s s1 hs hst
        exact ⟨h1, h2, fun r hr => hr.trans h3⟩)
      (fun s r hs hst => dedup_done s r hs.1 hst)
      (fun s hs => dedup_fault s hs.2)
      (found.length + 1) ⟨found, 0, found.length, []⟩ ⟨Nat.zero_le _, le_refl _⟩
      (by simp only; omega)
    obtain ⟨r, hr, hp⟩ := h
    rw [hr, hp]
    simp [dedupFrom, dedupAcc_eq]
  next hpos =>
    have : found = [] := List.length_eq_zero.mp (by omega)
    subst this
    rfl

theorem mem_keepFirst (xs : List (List Rune)) (w : List Rune) :
    w ∈ keepFirst xs ↔ w ∈ xs := by
  induction xs with
  | nil => simp [keepFirst]
  | cons x xs ih =>
    simp only [keepFirst, List.mem_cons, List.mem_filter, ih]
    by_cases h : w = x
    · simp [h]
    · simp [h]

theorem nodup_keepFirst (xs : List (List Rune)) : (keepFirst xs).Nodup := by
  induction xs with
  | nil => simp [keepFirst]
  | cons x xs ih =>
    simp only [keepFirst, List.nodup_cons, List.mem_filter]
    exact ⟨by simp, ih.filter _⟩

theorem filter_accepts_shift (node : DataNode) (r : Rune) (rest : List Rune) (L : List Nat) :
    (L.map (fun d => d + 1)).filter (fun k => node.accepts ((r :: rest).take k))
      = match node.child r with
        | none => []
        | some cur => (L.filter (fun k => cur.accepts (rest.take k))).map (fun d => d + 1) := by
  rw [List.filter_map]
  cases hc : node.child r with
  | none => simp [Function.comp_def, accepts_cons, hc]
  | some cur => simp [Function.comp_def, accepts_cons, hc]

theorem allEnds_eq (node : DataNode) (s : List Rune) :
    allEnds node s
      = ((List.range s.length).map (fun d => d + 1)).filter (fun k => node.accepts (s.take k)) := by
  induction s generalizing node with
  | nil => simp [allEnds]
  | cons r rest ih =>
    have hR : (List.range (r :: rest).length).map (fun d => d + 1)
        = 1 :: ((List.range rest.length).map (fun d => d + 1)).map (fun d => d + 1) := by
      rw [List.length_cons, List.range_succ_eq_map]
      simp [Function.comp_def]
    rw [hR, List.filter_cons, filter_accepts_shift, allEnds]
    cases hc : node.child r with
    | none => simp [accepts_cons, hc]
    | some cur =>
      simp only [ih]
      cases he : cur.isPathEnd <;> simp [accepts_cons, hc, accepts_nil, he]

theorem slice_window (text : List Rune) (l d : Nat) :
    slice text l (l + d + 1) = (text.drop l).take (d + 1) := by
  simp only [slice]
  congr 1
  omega

theorem liveWindows_cons (t : DataTrie) (r : Rune) (rest : List Rune) :
    liveWindows t (r :: rest)
      = ((List.range (rest.length + 1)).map (fun d => (r :: rest).take (d + 1))).filter
          (fun w => t.Root.accepts w) ++ liveWindows t rest := by
  simp only [liveWindows, slice_window, List.length_cons]
  rw [List.range_succ_eq_map, List.flatMap_cons, List.flatMap_map]
  simp
  rw [List.range_succ_eq_map]
  simp

theorem findSpec_eq_liveWindows (t : DataTrie) (text : List Rune) :
    findSpec t.Root text = liveWindows t text := by
  induction text with
  | nil => simp [findSpec, liveWindows]
  | cons r rest ih =>
    rw [findSpec, liveWindows_cons, ih, allEnds_eq]
    simp [List.filter_map, Function.comp_def]

theorem mem_liveWindows (t : DataTrie) (text w : List Rune) :
    w ∈ liveWindows t text ↔ Live t w ∧ w <:+: text := by
  simp only [liveWindows, slice_window, List.mem_flatMap, List.mem_filter, List.mem_map,
    List.mem_range]
  constructor
  · rintro ⟨l, hl, ⟨d, hd, rfl⟩, hacc⟩
    refine ⟨⟨?_, hacc⟩, ?_⟩
    · intro hnil
      have := congrArg List.length hnil
      simp only [List.length_take, List.length_drop, List.length_nil] at this
      omega
    · exact (List.take_prefix _ _).isInfix.trans (List.drop_suffix _ _).isInfix
  · rintro ⟨⟨hne, hacc⟩, a, b, rfl⟩
    have hw : 0 < w.length := List.length_pos.mpr hne
    refine ⟨a.length, by simp; omega, ⟨w.length - 1, by simp; omega, ?_⟩, hacc⟩
    have : w.length - 1 + 1 = w.length := by omega
    rw [this]
    simp [List.append_assoc]

theorem FindAll_eq_spec (t : DataTrie) (text : List Rune) :
    t.FindAll text = some (keepFirst (liveWindows t text)) := by
  rw [DataTrie.FindAll, findAll_scan, Option.some_bind, dedupMatches_eq, findSpec_eq_liveWindows]

/-- C2: `FindAll` finds every match in first-seen order.  Its result is the
list of all windows `text[l..r]` that spell a live phrase, taken by increasing
start and, for equal starts, increasing end, with every later duplicate removed;
so a string is in the result exactly when it is a live phrase occurring in the
text as a run of consecutive code points. -/
theorem FindAll_first_seen (t : DataTrie) (text : List Rune) :
    t.FindAll text = some (keepFirst (liveWindows t text)) ∧
      ∀ w, w ∈ keepFirst (liveWindows t text) ↔ (Live t w ∧ w <:+: text) :=
  ⟨FindAll_eq_spec t text, fun w => (mem_keepFirst _ w).trans (mem_liveWindows t text w)⟩

/-! ## Filter -/

theorem find_accepts_eq (node : DataNode) (s : List Rune) :
    ((List.range s.length).map (fun d => s.take (d + 1))).find? (fun w => node.accepts w)
      = (firstEnd node s).map (fun k => s.take k) := by
  induction s generalizing node with
  | nil => simp [firstEnd]
  | cons r rest ih =>
    rw [List.length_cons, List.range_succ_eq_map, List.map_cons, List.map_map, List.find?_cons]
    simp only [List.take_succ_cons, List.take_zero, accepts_cons, accepts_nil, firstEnd]
    cases hc : node.child r with
    | none =>
      simp only [Option.map_none']
      rw [List.find?_eq_none]
      intro w hw
      simp only [List.mem_map, List.mem_range, Function.comp_apply] at hw
      obtain ⟨d, _, rfl⟩ := hw
      simp [accepts_cons, hc]
    | some cur =>
      simp only
      cases he : cur.isPathEnd with
      | true => simp
      | false =>
        simp only [Bool.false_eq_true, if_false, Option.map_map]
        have := ih cur
        rw [List.find?_map] at this
        rw [List.find?_map]
        simp only [Function.comp_def, List.take_succ_cons, accepts_cons, hc, Nat.succ_eq_add_one]
        simp only [Function.comp_def] at this
        have h2 := congrArg (Option.map (fun w => r :: w)) this
        simpa [Option.map_map, Function.comp_def] using h2

theorem shortestLive_eq (t : DataTrie) (s : List Rune) :
    shortestLive t s = (firstEnd t.Root s).map (fun k => s.take k) :=
  find_accepts_eq t.Root s

theorem greedyDelete_some (t : DataTrie) (s : List Rune) (k : Nat)
    (h : firstEnd t.Root s = some k) : greedyDelete t s = greedyDelete t (s.drop k) := by
  obtain ⟨h1, h2, _, _⟩ := firstEnd_some _ _ _ h
  cases s with
  | nil => simp at h2; omega
  | cons c rest =>
    have hs : shortestLive t (c :: rest) = some ((c :: rest).take k) := by
      rw [shortestLive_eq, h]; rfl
    rw [greedyDelete]
    split
    next w hw =>
      rw [hs] at hw
      cases hw
      congr 2
      simp only [List.length_take]
      omega
    next hw => rw [hs] at hw; cases hw

theorem greedyDelete_none (t : DataTrie) (c : Rune) (rest : List Rune)
    (h : firstEnd t.Root (c :: rest) = none) :
    greedyDelete t (c :: rest) = c :: greedyDelete t rest := by
  have hs : shortestLive t (c :: rest) = none := by
    rw [shortestLive_eq, h]; rfl
  rw [greedyDelete]
  split
  next w hw => rw [hs] at hw; cases hw
  next hw => rfl

theorem greedySpans_some (t : DataTrie) (l : Nat) (s : List Rune) (k : Nat)
    (h : firstEnd t.Root s = some k) :
    greedySpans t l s = (l, l + k - 1) :: greedySpans t (l + k) (s.drop k) := by
  obtain ⟨h1, h2, _, _⟩ := firstEnd_some _ _ _ h
  cases s with
  | nil => simp at h2; omega
  | cons c rest =>
    have hs : shortestLive t (c :: rest) = some ((c :: rest).take k) := by
      rw [shortestLive_eq, h]; rfl
    rw [greedySpans]
    split
    next w hw =>
      rw [hs] at hw
      cases hw
      have hk : ((c :: rest).take k).length = k := by
        simp only [List.length_take]; omega
      rw [hk]
    next hw => rw [hs] at hw; cases hw

theorem greedySpans_none (t : DataTrie) (l : Nat) (c : Rune) (rest : List Rune)
    (h : firstEnd t.Root (c :: rest) = none) :
    greedySpans t l (c :: rest) = greedySpans t (l + 1) rest := by
  have hs : shortestLive t (c :: rest) = none := by
    rw [shortestLive_eq, h]; rfl
  rw [greedySpans]
  split
  next w hw => rw [hs] at hw; cases hw
  next hw => rfl

theorem filter_restart (t : DataTrie) (runes : List Rune) (l : Nat) (res : List Rune)
    (del : List (Nat × Nat)) :
    filterOut t runes ⟨⟨t.Root, l, l⟩, res, del⟩ = res ++ greedyDelete t (runes.drop l) ∧
    filterSpans t runes ⟨⟨t.Root, l, l⟩, res, del⟩ = del ++ greedySpans t l (runes.drop l) := by
  by_cases h : l < runes.length
  · simp only [filterOut, filterSpans, h, if_true]
    have hd := List.drop_eq_getElem_cons h
    cases hf : firstEnd t.Root (runes.drop l) with
    | some k =>
      simp only
      rw [greedyDelete_some t _ k hf, greedySpans_some t l _ k hf, List.drop_drop]
      simp [Nat.add_comm]
    | none =>
      simp only
      have ht : List.take 1 (List.drop l runes) = [runes[l]] := by rw [hd]; rfl
      rw [ht]
      rw [hd] at hf ⊢
      rw [greedyDelete_none t _ _ hf, greedySpans_none t l _ _ hf]
      simp
  · simp only [filterOut, filterSpans, h, if_false]
    rw [List.drop_eq_nil_of_le (by omega), greedyDelete, greedySpans]
    simp

theorem filter_next (t : DataTrie) (runes : List Rune) (s s1 : FilterState)
    (hs : s.cur.left ≤ s.cur.position ∧ s.cur.position ≤ runes.length)
    (hst : filterStep t.Root runes s = Step.next s1) :
    (s1.cur.left ≤ s1.cur.position ∧ s1.cur.position ≤ runes.length) ∧
      cursorMeasure runes.length s1.cur < cursorMeasure runes.length s.cur ∧
      filterOut t runes s1 = filterOut t runes s ∧
      filterSpans t runes s1 = filterSpans t runes s := by
  obtain ⟨⟨par, l, p⟩, res, del⟩ := s
  obtain ⟨hs, hs2⟩ := hs
  simp only at hs hs2
  unfold filterStep at hst
  simp only at hst
  split at hst
  next h =>
    have hd := List.drop_eq_getElem_cons h
    have hl : l < runes.length := by omega
    have hget : runes[l]? = some runes[l] := List.getElem?_eq_getElem hl
    have ht : List.take 1 (List.drop l runes) = [runes[l]] := by
      rw [List.drop_eq_getElem_cons hl]; rfl
    split at hst
    next hc =>
      rw [hget] at hst
      cases hst
      refine ⟨⟨le_refl _, by simp only; omega⟩, measure_reset _ _ _ _ _ hs h, ?_⟩
      rw [(filter_restart t runes (l + 1) _ _).1, (filter_restart t runes (l + 1) _ _).2]
      simp only [filterOut, filterSpans, h, if_true]
      rw [hd]
      simp [firstEnd, hc, ht]
    next current hc =>
      split at hst
      next hcond =>
        rw [hget] at hst
        cases hst
        refine ⟨⟨le_refl _, by simp only; omega⟩, measure_reset _ _ _ _ _ hs h, ?_⟩
        rw [(filter_restart t runes (l + 1) _ _).1, (filter_restart t runes (l + 1) _ _).2]
        simp only [Bool.and_eq_true, Bool.not_eq_true', beq_iff_eq, DataNode.IsPathEnd] at hcond
        have hnil : List.drop (p + 1) runes = [] := List.drop_eq_nil_of_le (by omega)
        simp only [filterOut, filterSpans, h, if_true]
        rw [hd, hnil]
        simp [firstEnd, hc, hcond.1, ht]
      next hcond =>
        split at hst
        next he =>
          cases hst
          refine ⟨⟨le_refl _, by simp only; omega⟩, measure_jump _ _ _ _ _ hs h, ?_⟩
          rw [(filter_restart t runes (p + 1) _ _).1, (filter_restart t runes (p + 1) _ _).2]
          simp only [DataNode.IsPathEnd] at he
          simp only [filterOut, filterSpans, h, if_true]
          rw [hd]
          simp [firstEnd, hc, he]
        next he =>
          cases hst
          simp only [Bool.and_eq_true, Bool.not_eq_true', beq_iff_eq, DataNode.IsPathEnd,
            not_and, Bool.not_eq_true] at hcond he
          have hp : p + 1 < runes.length := by
            have := hcond he
            omega
          refine ⟨⟨by simp only; omega, by simp only; omega⟩, measure_advance _ _ _ _ _ h, ?_⟩
          simp only [filterOut, filterSpans, h, hp, if_true]
          rw [hd]
          simp only [firstEnd, hc, he]
          cases firstEnd current (List.drop (p + 1) runes) with
          | none => simp
          | some k => simp [Nat.add_assoc, Nat.add_comm 1 k]
  next h => cases hst

theorem filter_done (t : DataTrie) (runes : List Rune) (s r : FilterState)
    (hs : s.cur.left ≤ s.cur.position ∧ s.cur.position ≤ runes.length)
    (hst : filterStep t.Root runes s = Step.done r) :
    filterFinish runes r = some (filterOut t runes s) ∧ r.deleted = filterSpans t runes s := by
  obtain ⟨⟨par, l, p⟩, res, del⟩ := s
  obtain ⟨hs, hs2⟩ := hs
  simp only at hs hs2
  unfold filterStep at hst
  simp only at hst
  split at hst
  next h =>
    split at hst
    next hc => split at hst <;> cases hst
    next current hc =>
      split at hst
      · split at hst <;> cases hst
      · split at hst <;> cases hst
  next h =>
    cases hst
    have : l ≤ runes.length := by omega
    simp [filterFinish, filterOut, filterSpans, h, this]

theorem filter_fault (t : DataTrie) (runes : List Rune) (s : FilterState)
    (hs : s.cur.left ≤ s.cur.position ∧ s.cur.position ≤ runes.length) :
    filterStep t.Root runes s ≠ Step.fault := by
  obtain ⟨⟨par, l, p⟩, res, del⟩ := s
  obtain ⟨hs, hs2⟩ := hs
  simp only at hs hs2
  unfold filterStep
  simp only
  split
  next h =>
    have hget : runes[l]? = some runes[l] := List.getElem?_eq_getElem (by omega)
    rw [hget]
    split
    · simp
    · split
      · simp
      · split <;> simp
  next h => simp

theorem filterRun_spec (t : DataTrie) (text : List Rune) :
    ∃ r, t.filterRun text = some r ∧ filterFinish text r = some (greedyDelete t text) ∧
      r.deleted = greedySpans t 0 text := by
  have h := iterate_spec (filterStep t.Root text)
    (fun s => s.cur.left ≤ s.cur.position ∧ s.cur.position ≤ text.length)
    (fun s => cursorMeasure text.length s.cur)
    (fun s r => filterFinish text r = some (filterOut t text s) ∧
      r.deleted = filterSpans t text s)
    (fun s s1 hs hst => by
      obtain ⟨h1, h2, h3, h4⟩ := filter_next t text s s1 hs hst
      exact ⟨h1, h2, fun r hr => ⟨h3 ▸ hr.1, h4 ▸ hr.2⟩⟩)
    (fun s r hs hst => filter_done t text s r hs hst)
    (fun s hs => filter_fault t text s hs)
    (scanFuel text.length) ⟨⟨t.Root, 0, 0⟩, [], []⟩ ⟨le_refl _, Nat.zero_le _⟩
    (measure_init _ _)
  obtain ⟨r, hr, hp1, hp2⟩ := h
  refine ⟨r, hr, ?_, ?_⟩
  · rw [hp1, (filter_restart t text 0 _ _).1]; simp
  · rw [hp2, (filter_restart t text 0 _ _).2]; simp

theorem Filter_eq_spec (t : DataTrie) (text : List Rune) :
    t.Filter text = some (greedyDelete t text) := by
  obtain ⟨r, hr, h1, _⟩ := filterRun_spec t text
  rw [DataTrie.Filter, hr, Option.some_bind, h1]

theorem firstEnd_of_shortest (t : DataTrie) (s w : List Rune) (hw : Live t w) (hpre : w <+: s)
    (hmin : ∀ w1, Live t w1 → w1 <+: s → w.length ≤ w1.length) :
    firstEnd t.Root s = some w.length := by
  cases hf : firstEnd t.Root s with
  | none =>
    have := firstEnd_none _ _ hf w hw.1 hpre
    rw [hw.2] at this
    cases this
  | some k =>
    obtain ⟨h1, h2, h3, h4⟩ := firstEnd_some _ _ _ hf
    have hle : k ≤ w.length := h4 w hw.1 hpre hw.2
    have hne : s.take k ≠ [] := by
      intro hnil
      have := congrArg List.length hnil
      simp only [List.length_take, List.length_nil] at this
      omega
    have hge := hmin (s.take k) ⟨hne, h3⟩ (List.take_prefix _ _)
    simp only [List.length_take] at hge
    congr 1
    omega

theorem firstEnd_of_no_live (t : DataTrie) (s : List Rune)
    (h : ∀ w, Live t w → ¬ w <+: s) : firstEnd t.Root s = none := by
  cases hf : firstEnd t.Root s with
  | none => rfl
  | some k =>
    obtain ⟨h1, h2, h3, h4⟩ := firstEnd_some _ _ _ hf
    have hne : s.take k ≠ [] := by
      intro hnil
      have := congrArg List.length hnil
      simp only [List.length_take, List.length_nil] at this
      omega
    exact absurd (List.take_prefix _ _) (h (s.take k) ⟨hne, h3⟩)

/-- C3: `Filter` is greedy leftmost-shortest deletion.  `Filter` returns `G` of
the text, where `G([]) = []`, `G(s) = G(s` without its first `|w|` code
points`)` when `w` is the shortest live phrase that is a beginning of `s`, and
`G(c :: rest) = c :: G(rest)` when no live phrase is a beginning of
`c :: rest`.  With the dictionary {"bad"}, "a badword b" gives "a word b". -/
theorem Filter_greedy :
    (∀ (t : DataTrie) (text : List Rune), t.Filter text = some (greedyDelete t text)) ∧
    (∀ t : DataTrie, greedyDelete t [] = []) ∧
    (∀ (t : DataTrie) (s w : List Rune), Live t w → w <+: s →
      (∀ w1, Live t w1 → w1 <+: s → w.length ≤ w1.length) →
      greedyDelete t s = greedyDelete t (s.drop w.length)) ∧
    (∀ (t : DataTrie) (c : Rune) (rest : List Rune), (∀ w, Live t w → ¬ w <+: c :: rest) →
      greedyDelete t (c :: rest) = c :: greedyDelete t rest) ∧
    dictBadOnly.Filter tABadwordB = some tAWordB := by
  refine ⟨Filter_eq_spec, ?_, ?_, ?_, by decide⟩
  · intro t
    rw [greedyDelete]
  · intro t s w hw hpre hmin
    exact greedyDelete_some t s _ (firstEnd_of_shortest t s w hw hpre hmin)
  · intro t c rest h
    exact greedyDelete_none t c rest (firstEnd_of_no_live t _ h)

theorem greedyDelete_clean (t : DataTrie) (s : List Rune)
    (h : ∀ l w, Live t w → ¬ w <+: s.drop l) : greedyDelete t s = s := by
  induction s with
  | nil => rw [greedyDelete]
  | cons c rest ih =>
    rw [greedyDelete_none t c rest (firstEnd_of_no_live t _ (fun w hw => by simpa using h 0 w hw))]
    rw [ih (fun l w hw => by simpa using h (l + 1) w hw)]

theorem clean_iff (t : DataTrie) (s : List Rune) :
    (¬ ∃ w, Live t w ∧ w <:+: s) ↔ ∀ l w, Live t w → ¬ w <+: s.drop l := by
  constructor
  · intro h l w hw hpre
    exact h ⟨w, hw, (infix_iff_prefix_drop w s).mpr ⟨l, hpre⟩⟩
  · rintro h ⟨w, hw, hin⟩
    obtain ⟨l, hl⟩ := (infix_iff_prefix_drop w s).mp hin
    exact h l w hw hl

theorem greedyDelete_length_le (t : DataTrie) (n : Nat) :
    ∀ s : List Rune, s.length ≤ n → (greedyDelete t s).length ≤ s.length := by
  induction n with
  | zero =>
    intro s hs
    have : s = [] := List.length_eq_zero.mp (by omega)
    subst this
    rw [greedyDelete]
  | succ n ih =>
    intro s hs
    cases s with
    | nil => rw [greedyDelete]
    | cons c rest =>
      cases hf : firstEnd t.Root (c :: rest) with
      | none =>
        rw [greedyDelete_none t c rest hf]
        have := ih rest (by simpa using hs)
        simp only [List.length_cons]
        omega
      | some k =>
        obtain ⟨h1, h2, _, _⟩ := firstEnd_some _ _ _ hf
        rw [greedyDelete_some t _ k hf]
        have hl : ((c :: rest).drop k).length ≤ n := by
          simp only [List.length_drop, List.length_cons] at hs ⊢
          omega
        have := ih _ hl
        simp only [List.length_drop] at this ⊢
        omega

theorem greedyDelete_fixed (t : DataTrie) (s : List Rune) (h : greedyDelete t s = s) :
    ∀ l w, Live t w → ¬ w <+: s.drop l := by
  induction s with
  | nil =>
    intro l w hw hpre
    simp only [List.drop_nil, List.prefix_nil] at hpre
    exact hw.1 hpre
  | cons c rest ih =>
    cases hf : firstEnd t.Root (c :: rest) with
    | some k =>
      obtain ⟨h1, h2, _, _⟩ := firstEnd_some _ _ _ hf
      rw [greedyDelete_some t _ k hf] at h
      have h3 := greedyDelete_length_le t _ ((c :: rest).drop k) (le_refl _)
      rw [h] at h3
      simp only [List.length_drop, List.length_cons] at h3 h2
      omega
    | none =>
      rw [greedyDelete_none t c rest hf] at h
      have hrest : greedyDelete t rest = rest := by
        simpa using h
      intro l w hw hpre
      cases l with
      | zero =>
        have := firstEnd_none _ _ hf w hw.1 (by simpa using hpre)
        rw [hw.2] at this
        cases this
      | succ l1 => exact ih hrest l1 w hw (by simpa using hpre)

/-- C7, counterexample: with the dictionary {"ab"}, `Filter` turns "aabb" into
"ab", which is itself a live phrase, and filtering "ab" again gives "". -/
theorem Filter_not_idempotent :
    dictAb.Filter [97, 97, 98, 98] = some [97, 98] ∧
      Live dictAb [97, 98] ∧ [97, 98] <:+: [97, 98] ∧
      dictAb.Filter [97, 98] = some [] ∧ dictAb.Filter [97, 98] ≠ some [97, 98] :=
  ⟨by decide, ⟨by decide, by decide⟩, List.infix_refl _, by decide, by decide⟩

/-- C7, amended: `Filter` always returns a text, and filtering that output
again returns it unchanged exactly when no live phrase occurs in it. -/
theorem Filter_idempotent_iff (t : DataTrie) (text : List Rune) :
    ∃ out, t.Filter text = some out ∧
      (t.Filter out = some out ↔ ¬ ∃ w, Live t w ∧ w <:+: out) := by
  refine ⟨greedyDelete t text, Filter_eq_spec t text, ?_⟩
  rw [Filter_eq_spec, clean_iff]
  constructor
  · intro h
    exact greedyDelete_fixed t _ (Option.some.inj h)
  · intro h
    rw [greedyDelete_clean t _ h]

/-- C8: `Filter` is the identity on clean text: when no live phrase occurs in
the text as a run of consecutive code points, or, which is the same, when
`Validate` answers `(true, "")`, `Filter` returns the text unchanged. -/
theorem Filter_clean (t : DataTrie) (text : List Rune)
    (h : (¬ ∃ w, Live t w ∧ w <:+: text) ∨ t.Validate text = some (true, [])) :
    t.Filter text = some text := by
  have hclean : ¬ ∃ w, Live t w ∧ w <:+: text := by
    rcases h with h | h
    · exact h
    · exact ((Validate_cases t text).1).mp h
  rw [Filter_eq_spec, greedyDelete_clean t text ((clean_iff t text).mp hclean)]

/-- C8, witness: "x" is clean for the dictionary {"bad", "word", "badword"}. -/
theorem Filter_clean_witness :
    dictBad.Validate [120] = some (true, []) ∧ dictBad.Filter [120] = some [120] :=
  ⟨by decide, Filter_clean dictBad [120] (Or.inr (by decide))⟩

/-! ## Replace -/

theorem getElem?_maskTo (c : Rune) (buf : List Rune) (lo hi j : Nat) (h1 : lo ≤ hi)
    (h2 : hi ≤ buf.length) :
    (maskTo c buf lo hi)[j]? = if lo ≤ j ∧ j < hi then some c else buf[j]? := by
  unfold maskTo
  have hlen : (List.take lo buf).length = lo := by
    rw [List.length_take]; omega
  by_cases hj1 : j < lo
  · rw [List.append_assoc, List.getElem?_append_left (by rw [hlen]; exact hj1),
      List.getElem?_take_of_lt hj1, if_neg (by omega)]
  · rw [List.append_assoc, List.getElem?_append_right (by rw [hlen]; omega), hlen]
    by_cases hj2 : j < hi
    · rw [List.getElem?_append_left (by rw [List.length_replicate]; omega),
        List.getElem?_replicate_of_lt (by omega), if_pos (by omega)]
    · rw [List.getElem?_append_right (by rw [List.length_replicate]; omega),
        List.length_replicate, List.getElem?_drop, if_neg (by omega)]
      congr 1
      omega

theorem maskTo_length (c : Rune) (buf : List Rune) (lo hi : Nat) (h1 : lo ≤ hi)
    (h2 : hi ≤ buf.length) : (maskTo c buf lo hi).length = buf.length := by
  simp only [maskTo, List.length_append, List.length_take, List.length_replicate,
    List.length_drop]
  omega

theorem maskLoop_eq (c : Rune) (k : Nat) : ∀ (i : Nat) (buf : List Rune),
    i + k ≤ buf.length → maskLoop c k i buf = maskTo c buf i (i + k) := by
  induction k with
  | zero =>
    intro i buf _
    simp [maskLoop, maskTo]
  | succ k ih =>
    intro i buf h
    rw [maskLoop, ih (i + 1) _ (by simp; omega)]
    apply List.ext_getElem?
    intro j
    rw [getElem?_maskTo _ _ _ _ _ (by omega) (by simp; omega),
      getElem?_maskTo _ _ _ _ _ (by omega) (by omega), List.getElem?_set]
    by_cases hj : i = j
    · subst hj
      have : i < buf.length := by omega
      simp [this]
    · simp only [hj, if_false]
      by_cases h3 : i + 1 ≤ j ∧ j < i + 1 + k
      · rw [if_pos h3, if_pos (by omega)]
      · rw [if_neg h3, if_neg (by omega)]

theorem maskTo_drop (c : Rune) (buf : List Rune) (lo hi h : Nat) (h1 : lo ≤ hi)
    (h2 : hi ≤ buf.length) (h3 : hi ≤ h) : (maskTo c buf lo hi).drop h = buf.drop h := by
  apply List.ext_getElem?
  intro j
  rw [List.getElem?_drop, List.getElem?_drop, getElem?_maskTo _ _ _ _ _ h1 h2,
    if_neg (by omega)]

theorem maskTo_absorb (c : Rune) (buf : List Rune) (lo hi hi2 : Nat) (h1 : lo ≤ hi)
    (h2 : hi ≤ hi2) (h3 : hi2 ≤ buf.length) :
    maskTo c (maskTo c buf lo hi) lo hi2 = maskTo c buf lo hi2 := by
  apply List.ext_getElem?
  intro j
  rw [getElem?_maskTo _ _ _ _ _ (by omega)
      (by rw [maskTo_length _ _ _ _ h1 (by omega)]; exact h3),
    getElem?_maskTo _ _ _ _ _ (by omega) h3, getElem?_maskTo _ _ _ _ _ h1 (by omega)]
  by_cases h4 : lo ≤ j ∧ j < hi2
  · simp only [if_pos h4]
  · simp only [if_neg h4]
    rw [if_neg (by omega)]

theorem lastEnd_bounds (node : DataNode) (s : List Rune) (k : Nat)
    (h : lastEnd node s = some k) : 1 ≤ k ∧ k ≤ s.length := by
  induction s generalizing node k with
  | nil => simp [lastEnd] at h
  | cons r rest ih =>
    simp only [lastEnd] at h
    cases hc : node.child r with
    | none => simp [hc] at h
    | some cur =>
      simp only [hc] at h
      cases hl : lastEnd cur rest with
      | some k1 =>
        simp only [hl, Option.some.injEq] at h
        have := ih cur k1 hl
        simp only [List.length_cons]
        omega
      | none =>
        simp only [hl] at h
        split at h
        · cases h; simp
        · cases h

theorem replace_restart (root : DataNode) (c : Rune) (l : Nat) (buf : List Rune) :
    replaceFrom root c ⟨⟨root, l, l⟩, buf⟩ = replaceSpec root c (buf.length - l) l buf := by
  by_cases h : l < buf.length
  · have hm : buf.length - l = (buf.length - (l + 1)) + 1 := by omega
    rw [hm, replaceSpec]
    simp only [replaceFrom, h, if_true]
  · have hm : buf.length - l = 0 := by omega
    rw [hm, replaceSpec]
    simp only [replaceFrom, h, if_false]

theorem replace_next (root : DataNode) (c : Rune) (n : Nat) (s s1 : ReplaceState)
    (hs : s.cur.left ≤ s.cur.position ∧ s.cur.position ≤ n ∧ s.runes.length = n)
    (hst : replaceStep root c n s = Step.next s1) :
    (s1.cur.left ≤ s1.cur.position ∧ s1.cur.position ≤ n ∧ s1.runes.length = n) ∧
      cursorMeasure n s1.cur < cursorMeasure n s.cur ∧
      replaceFrom root c s1 = replaceFrom root c s := by
  obtain ⟨⟨par, l, p⟩, buf⟩ := s
  obtain ⟨hs, hs2, hn⟩ := hs
  simp only at hs hs2 hn
  subst hn
  unfold replaceStep at hst
  simp only at hst
  split at hst
  next h =>
    have hd := List.drop_eq_getElem_cons h
    split at hst
    next hc =>
      cases hst
      refine ⟨⟨le_refl _, by simp only; omega, rfl⟩, measure_reset _ _ _ _ _ hs h, ?_⟩
      rw [replace_restart]
      simp only [replaceFrom, h, if_true]
      rw [hd]
      simp [lastEnd, hc]
    next current hc =>
      split at hst
      next hcond =>
        cases hst
        refine ⟨⟨le_refl _, by simp only; omega, rfl⟩, measure_reset _ _ _ _ _ hs h, ?_⟩
        rw [replace_restart]
        simp only [Bool.and_eq_true, Bool.not_eq_true', beq_iff_eq, DataNode.IsPathEnd] at hcond
        have hnil : List.drop (p + 1) buf = [] := List.drop_eq_nil_of_le (by omega)
        simp only [replaceFrom, h, if_true]
        rw [hd, hnil]
        simp [lastEnd, hc, hcond.1]
      next hcond =>
        cases hst
        simp only [Bool.and_eq_true, Bool.not_eq_true', beq_iff_eq, DataNode.IsPathEnd,
          not_and] at hcond
        cases he : current.isPathEnd with
        | false =>
          have hp : p + 1 < buf.length := by
            have := hcond he
            omega
          refine ⟨⟨by simp only; omega, by simp only; omega, by simp [DataNode.IsPathEnd, he]⟩,
            measure_advance _ _ _ _ _ h, ?_⟩
          simp only [DataNode.IsPathEnd, he, Bool.false_and, Bool.false_eq_true, if_false,
            replaceFrom, h, hp, if_true]
          rw [hd]
          simp only [lastEnd, hc, he]
          cases hl : lastEnd current (List.drop (p + 1) buf) with
          | none => simp
          | some k => simp [Nat.add_assoc, Nat.add_comm 1 k]
        | true =>
          have hmask : maskLoop c (p + 1 - l) l buf = maskTo c buf l (p + 1) := by
            rw [maskLoop_eq c _ l buf (by omega)]
            congr 1
            omega
          have hlen : (maskTo c buf l (p + 1)).length = buf.length :=
            maskTo_length _ _ _ _ (by omega) (by omega)
          simp only [DataNode.IsPathEnd, he, Bool.true_and, decide_eq_true_eq, hs, if_true,
            hmask]
          refine ⟨⟨by omega, by omega, hlen⟩, measure_advance _ _ _ _ _ h, ?_⟩
          simp only [replaceFrom, h, if_true, hlen]
          rw [hd]
          simp only [lastEnd, hc, he, if_true]
          rw [maskTo_drop _ _ _ _ _ (by omega) (by omega) (le_refl _)]
          by_cases hp : p + 1 < buf.length
          · simp only [hp, if_true]
            cases hl : lastEnd current (List.drop (p + 1) buf) with
            | none =>
              simp only
              rw [if_neg (by omega)]
            | some k =>
              have hk := lastEnd_bounds _ _ _ hl
              simp only [List.length_drop] at hk
              simp only
              rw [maskTo_absorb _ _ _ _ _ (by omega) (by omega) (by omega)]
              simp [Nat.add_assoc, Nat.add_comm 1 k]
          · simp only [hp, if_false]
            have hnil : List.drop (p + 1) buf = [] := List.drop_eq_nil_of_le (by omega)
            rw [hnil]
            simp only [lastEnd]
            rw [if_pos (by omega)]
  next h => cases hst

theorem replace_done (root : DataNode) (c : Rune) (n : Nat) (s : ReplaceState) (r : List Rune)
    (hst : replaceStep root c n s = Step.done r) : r = replaceFrom root c s := by
  obtain ⟨⟨par, l, p⟩, buf⟩ := s
  unfold replaceStep at hst
  simp only at hst
  split at hst
  next h =>
    split at hst
    next hc => cases hst
    next current hc => split at hst <;> cases hst
  next h =>
    cases hst
    simp [replaceFrom, h]

theorem replace_fault (root : DataNode) (c : Rune) (n : Nat) (s : ReplaceState) :
    replaceStep root c n s ≠ Step.fault := by
  unfold replaceStep
  simp only
  split
  · split
    · simp
    · split <;> simp
  · simp

theorem replaceRun_eq_spec (t : DataTrie) (text : List Rune) (c : Rune) :
    t.replaceRun text c = some (replaceSpec t.Root c text.length 0 text) := by
  have h := iterate_spec (replaceStep t.Root c text.length)
    (fun s => s.cur.left ≤ s.cur.position ∧ s.cur.position ≤ text.length ∧
      s.runes.length = text.length)
    (fun s => cursorMeasure text.length s.cur)
    (fun s r => r = replaceFrom t.Root c s)
    (fun s s1 hs hst => by
      obtain ⟨h1, h2, h3⟩ := replace_next t.Root c text.length s s1 hs hst
      exact ⟨h1, h2, fun r hr => hr.trans h3⟩)
    (fun s r _ hst => replace_done t.Root c text.length s r hst)
    (fun s _ => replace_fault t.Root c text.length s)
    (scanFuel text.length) ⟨⟨t.Root, 0, 0⟩, text⟩ ⟨le_refl _, Nat.zero_le _, rfl⟩
    (measure_init _ _)
  obtain ⟨r, hr, hp⟩ := h
  rw [DataTrie.replaceRun, hr, hp, replace_restart]
  simp

theorem Replace_eq_spec (t : DataTrie) (text : List Rune) (c : Rune) :
    t.Replace text c = some (stringOfRunes (replaceSpec t.Root c text.length 0 text)) := by
  rw [DataTrie.Replace, replaceRun_eq_spec]
  rfl

theorem stringRune_valid (r : Rune) (h : validRune r = true) : stringRune r = r := by
  simp [stringRune, h]

theorem stringOfRunes_length (l : List Rune) : (stringOfRunes l).length = l.length := by
  simp [stringOfRunes]

theorem getElem?_stringOfRunes (l : List Rune) (i : Nat) :
    (stringOfRunes l)[i]? = l[i]?.map stringRune := by
  simp [stringOfRunes]

theorem stringOfRunes_valid (l : List Rune) (h : ∀ r ∈ l, validRune r = true) :
    stringOfRunes l = l := by
  induction l with
  | nil => rfl
  | cons a l ih =>
    simp only [stringOfRunes, List.map_cons]
    rw [stringRune_valid a (h a (List.mem_cons_self _ _))]
    congr 1
    exact ih (fun r hr => h r (List.mem_cons_of_mem _ hr))

theorem mem_maskTo (c : Rune) (buf : List Rune) (lo hi : Nat) (x : Rune)
    (h : x ∈ maskTo c buf lo hi) : x ∈ buf ∨ x = c := by
  simp only [maskTo, List.mem_append, List.mem_replicate] at h
  rcases h with (h | h) | h
  · exact Or.inl (List.mem_of_mem_take h)
  · exact Or.inr h.2
  · exact Or.inl (List.mem_of_mem_drop h)

theorem mem_replaceSpec (root : DataNode) (c : Rune) (m : Nat) :
    ∀ (l : Nat) (buf : List Rune) (x : Rune), x ∈ replaceSpec root c m l buf →
      x ∈ buf ∨ x = c := by
  induction m with
  | zero =>
    intro l buf x h
    exact Or.inl h
  | succ m ih =>
    intro l buf x h
    rw [replaceSpec] at h
    cases hl : lastEnd root (buf.drop l) with
    | none =>
      rw [hl] at h
      exact ih _ _ _ h
    | some k =>
      rw [hl] at h
      simp only at h
      split at h
      · exact mem_maskTo _ _ _ _ _ h
      · rcases ih _ _ _ h with h1 | h1
        · exact mem_maskTo _ _ _ _ _ h1
        · exact Or.inr h1

theorem replaceSpec_length (root : DataNode) (c : Rune) (m : Nat) :
    ∀ (l : Nat) (buf : List Rune), (replaceSpec root c m l buf).length = buf.length := by
  induction m with
  | zero => intro l buf; rfl
  | succ m ih =>
    intro l buf
    rw [replaceSpec]
    cases hl : lastEnd root (buf.drop l) with
    | none => exact ih (l + 1) buf
    | some k =>
      have hk := lastEnd_bounds _ _ _ hl
      simp only [List.length_drop] at hk
      have hlen : (maskTo c buf l (l + k)).length = buf.length :=
        maskTo_length _ _ _ _ (by omega) (by omega)
      simp only
      split
      · exact hlen
      · rw [ih, hlen]

/-- C6: `Replace` preserves length: it returns a text with as many code points
as the input. -/
theorem Replace_length (t : DataTrie) (text : List Rune) (c : Rune) :
    ∃ out, t.Replace text c = some out ∧ out.length = text.length :=
  ⟨_, Replace_eq_spec t text c,
    (stringOfRunes_length _).trans (replaceSpec_length _ _ _ _ _)⟩

/-- C9: `FindAll` returns a list without duplicates, and every element is a
run of consecutive code points of the text on which `Validate`, with the same
dictionary, answers `(false, _)`. -/
theorem FindAll_nodup_detectable (t : DataTrie) (text : List Rune) :
    ∃ r, t.FindAll text = some r ∧ r.Nodup ∧
      ∀ e, e ∈ r → e <:+: text ∧ ∃ w, t.Validate e = some (false, w) := by
  refine ⟨_, FindAll_eq_spec t text, nodup_keepFirst _, ?_⟩
  intro e he
  obtain ⟨hlive, hin⟩ := (mem_liveWindows t text e).mp ((mem_keepFirst _ e).mp he)
  refine ⟨hin, ?_⟩
  rcases (Validate_cases t e).2 with ⟨_, hclean⟩ | ⟨l, w, hv, _⟩
  · exact absurd ⟨e, hlive, List.infix_refl e⟩ hclean
  · exact ⟨w, hv⟩

/-- C10, counterexample: with the dictionary {"bad", "word", "badword"} the
result of `FindAll("badword")` is not made of "bad" and "badword" alone: it
holds "word" as well. -/
theorem FindAll_badword_not_two :
    ¬ ∃ r, dictBad.FindAll wBadword = some r ∧ ∀ w, w ∈ r ↔ (w = wBad ∨ w = wBadword) := by
  rintro ⟨r, hr, h⟩
  have he : dictBad.FindAll wBadword = some [wBad, wBadword, wWord] := by decide
  rw [he] at hr
  cases hr
  have := (h wWord).mp (by simp)
  revert this
  decide

/-- C10, amended: with the dictionary {"bad", "word", "badword"},
`FindAll("badword")` returns the three strings "bad", "badword" and "word", in
this order, each once. -/
theorem FindAll_badword :
    dictBad.FindAll wBadword = some [wBad, wBadword, wWord] := by
  decide

/-- C5, evaluation at the failing input: with the dictionary {"ab", "xc"} and
the mask `x`, `Replace("abc", x)` is "xxx"; index 2 changes although the only
occurrence of a live phrase in "abc" is "ab" at the indices 0 and 1. -/
theorem Replace_masks_unmatched :
    dictAbXc.Replace [97, 98, 99] 120 = some [120, 120, 120] ∧
      ¬ ReplaceFrame dictAbXc [97, 98, 99] 120 := by
  have he : dictAbXc.Replace [97, 98, 99] 120 = some [120, 120, 120] := by decide
  refine ⟨he, ?_⟩
  rintro ⟨out, hout, h⟩
  rw [he] at hout
  cases hout
  obtain ⟨_, l, w, hlive, hpre, hl, hi⟩ := h 2 (by decide)
  have hlen := hpre.length_le
  simp only [List.length_drop, List.length_cons, List.length_nil] at hlen
  have hw : w = List.drop l [97, 98, 99] := by
    apply List.IsPrefix.eq_of_length hpre
    simp only [List.length_drop, List.length_cons, List.length_nil]
    omega
  have hacc := hlive.2
  have hl3 : l = 0 ∨ l = 1 ∨ l = 2 := by omega
  rcases hl3 with rfl | rfl | rfl <;> subst hw <;> revert hacc <;> decide

/-! ## Replace against Filter -/

theorem lastEnd_accepts (node : DataNode) (s : List Rune) (k : Nat)
    (h : lastEnd node s = some k) : node.accepts (s.take k) = true := by
  induction s generalizing node k with
  | nil => simp [lastEnd] at h
  | cons r rest ih =>
    simp only [lastEnd] at h
    cases hc : node.child r with
    | none => simp [hc] at h
    | some cur =>
      simp only [hc] at h
      cases hl : lastEnd cur rest with
      | some k1 =>
        simp only [hl, Option.some.injEq] at h
        subst h
        simp [accepts_cons, hc, ih cur k1 hl]
      | none =>
        simp only [hl] at h
        split at h
        next he =>
          cases h
          simp [accepts_cons, hc, accepts_nil, he]
        next he => cases h

theorem lastEnd_none_iff (node : DataNode) (s : List Rune) :
    lastEnd node s = none ↔ firstEnd node s = none := by
  induction s generalizing node with
  | nil => simp [lastEnd, firstEnd]
  | cons r rest ih =>
    simp only [lastEnd, firstEnd]
    cases hc : node.child r with
    | none => simp
    | some cur =>
      simp only
      have := ih cur
      cases hl : lastEnd cur rest with
      | some k1 =>
        simp only [hl, false_iff, reduceCtorEq] at this ⊢
        cases he : cur.isPathEnd with
        | true => simp
        | false =>
          simp only [Bool.false_eq_true, if_false, Option.map_eq_none']
          simpa using this
      | none =>
        simp only [hl, true_iff] at this
        simp only [this, Option.map_none']

theorem take_ne_nil (s : List Rune) (k : Nat) (h1 : 1 ≤ k) (h2 : k ≤ s.length) :
    s.take k ≠ [] := by
  intro hnil
  have := congrArg List.length hnil
  simp only [List.length_take, List.length_nil] at this
  omega

theorem lastEnd_masked (t : DataTrie) (c : Rune) (rest : List Rune)
    (hc : ∀ w, Live t w → c ∉ w) : lastEnd t.Root (c :: rest) = none := by
  cases hl : lastEnd t.Root (c :: rest) with
  | none => rfl
  | some k =>
    obtain ⟨g1, g2⟩ := lastEnd_bounds _ _ _ hl
    have g3 := lastEnd_accepts _ _ _ hl
    have hmem : c ∈ (c :: rest).take k := by
      cases k with
      | zero => omega
      | succ k1 => simp
    exact absurd hmem (hc _ ⟨take_ne_nil _ k g1 g2, g3⟩)

theorem live_dictBadOnly (w : List Rune) (h : Live dictBadOnly w) : w = [98, 97, 100] := by
  obtain ⟨hne, hacc⟩ := h
  have hroot : dictBadOnly.Root = DataNode.mk true false 0
      [(98, DataNode.mk false false 98
        [(97, DataNode.mk false false 97 [(100, DataNode.mk false true 100 [])])])] := rfl
  rw [hroot] at hacc
  cases w with
  | nil => exact absurd rfl hne
  | cons a w =>
    simp only [accepts_cons, DataNode.child, DataNode.Children, List.lookup] at hacc
    split at hacc
    next => cases hacc
    next cur hcur =>
      split at hcur
      next heq =>
        cases hcur
        have ha : a = 98 := by simpa using heq
        subst ha
        cases w with
        | nil => simp [accepts_nil, DataNode.isPathEnd] at hacc
        | cons b w =>
          simp only [accepts_cons, DataNode.child, DataNode.Children, List.lookup] at hacc
          split at hacc
          next => cases hacc
          next cur2 hcur2 =>
            split at hcur2
            next heq2 =>
              cases hcur2
              have hb : b = 97 := by simpa using heq2
              subst hb
              cases w with
              | nil => simp [accepts_nil, DataNode.isPathEnd] at hacc
              | cons d w =>
                simp only [accepts_cons, DataNode.child, DataNode.Children, List.lookup] at hacc
                split at hacc
                next => cases hacc
                next cur3 hcur3 =>
                  split at hcur3
                  next heq3 =>
                    cases hcur3
                    have hd : d = 100 := by simpa using heq3
                    subst hd
                    cases w with
                    | nil => rfl
                    | cons e w =>
                      simp [accepts_cons, DataNode.child, DataNode.Children, List.lookup] at hacc
                  next => cases hcur3
            next => cases hcur2
      next => cases hcur

theorem replaceSpec_frame (t : DataTrie) (c : Rune) (text : List Rune)
    (hc : ∀ w, Live t w → c ∉ w) :
    ∀ (m l f : Nat) (buf : List Rune), buf.length = text.length → l ≤ f → f ≤ text.length →
      m = text.length - l → buf.drop f = text.drop f →
      (∀ j, l ≤ j → j < f → buf[j]? = some c) →
      (∀ i, buf[i]? ≠ text[i]? → buf[i]? = some c ∧
        ∃ l w, Live t w ∧ w <+: text.drop l ∧ l ≤ i ∧ i < l + w.length) →
      ∀ i, (replaceSpec t.Root c m l buf)[i]? ≠ text[i]? →
        (replaceSpec t.Root c m l buf)[i]? = some c ∧
          ∃ l w, Live t w ∧ w <+: text.drop l ∧ l ≤ i ∧ i < l + w.length := by
  intro m
  induction m with
  | zero =>
    intro l f buf _ _ _ _ _ _ hq
    exact hq
  | succ m ih =>
    intro l f buf hlen hlf hfn hm hdrop hmask hq
    have hl : l < buf.length := by omega
    have hbl := List.drop_eq_getElem_cons hl
    rw [replaceSpec]
    by_cases hlt : l < f
    · have hcl : buf[l] = c := by
        have := hmask l (le_refl _) hlt
        rw [List.getElem?_eq_getElem hl] at this
        exact Option.some.inj this
      rw [hbl, hcl, lastEnd_masked t c _ hc]
      exact ih (l + 1) f buf hlen (by omega) hfn (by omega) hdrop
        (fun j h1 h2 => hmask j (by omega) h2) hq
    · have hf : f = l := by omega
      subst hf
      have htl : f < text.length := by omega
      have hd1 : buf.drop (f + 1) = text.drop (f + 1) := by
        have := congrArg (List.drop 1) hdrop
        simpa [List.drop_drop] using this
      rw [hdrop]
      cases hle : lastEnd t.Root (text.drop f) with
      | none =>
        exact ih (f + 1) (f + 1) buf hlen (le_refl _) (by omega) (by omega) hd1
          (fun j h1 h2 => by omega) hq
      | some k =>
        obtain ⟨h1, h2⟩ := lastEnd_bounds _ _ _ hle
        have hacc := lastEnd_accepts _ _ _ hle
        have hlive : Live t ((text.drop f).take k) := ⟨take_ne_nil _ k h1 h2, hacc⟩
        simp only [List.length_drop] at h2
        have hdk : buf.drop (f + k) = text.drop (f + k) := by
          have := congrArg (List.drop k) hdrop
          simpa [List.drop_drop] using this
        have hq2 : ∀ i, (maskTo c buf f (f + k))[i]? ≠ text[i]? →
            (maskTo c buf f (f + k))[i]? = some c ∧
              ∃ l w, Live t w ∧ w <+: text.drop l ∧ l ≤ i ∧ i < l + w.length := by
          intro i
          rw [getElem?_maskTo _ _ _ _ _ (by omega) (by omega)]
          by_cases hi : f ≤ i ∧ i < f + k
          · rw [if_pos hi]
            intro _
            refine ⟨rfl, f, _, hlive, List.take_prefix _ _, hi.1, ?_⟩
            simp only [List.length_take, List.length_drop]
            omega
          · rw [if_neg hi]
            exact hq i
        simp only
        split
        next hend => exact hq2
        next hend =>
          exact ih (f + 1) (f + k) (maskTo c buf f (f + k))
            ((maskTo_length _ _ _ _ (by omega) (by omega)).trans hlen) (by omega) (by omega)
            (by omega)
            ((maskTo_drop _ _ _ _ _ (by omega) (by omega) (le_refl _)).trans hdk)
            (fun j g1 g2 => by
              rw [getElem?_maskTo _ _ _ _ _ (by omega) (by omega), if_pos (by omega)])
            hq2

theorem Replace_frame_of_fresh_mask (t : DataTrie) (text : List Rune) (c : Rune)
    (hv : ∀ r ∈ text, validRune r = true) (hcv : validRune c = true)
    (hc : ∀ w, Live t w → c ∉ w) : ReplaceFrame t text c := by
  refine ⟨_, Replace_eq_spec t text c, ?_⟩
  rw [stringOfRunes_valid]
  · exact replaceSpec_frame t c text hc text.length 0 0 text rfl (le_refl _) (Nat.zero_le _)
      rfl rfl (fun j h1 h2 => by omega) (fun i h => absurd rfl h)
  · intro r hr
    rcases mem_replaceSpec _ _ _ _ _ _ hr with h | h
    · exact hv r h
    · rw [h]; exact hcv

/-! ## Tries built by Add and Del -/

theorem setChild_isPathEnd (node v : DataNode) (r : Rune) :
    (node.setChild r v).isPathEnd = node.isPathEnd := rfl

theorem addFrom_isPathEnd (w : List Rune) (node : DataNode) :
    (addFrom w node).isPathEnd = node.isPathEnd := by
  cases w with
  | nil => rfl
  | cons r rest => simp only [addFrom, setChild_isPathEnd]

theorem delFrom_isPathEnd (w : List Rune) (node : DataNode) :
    (delFrom w node).isPathEnd = node.isPathEnd := by
  cases w with
  | nil => rfl
  | cons r rest =>
    simp only [delFrom]
    split
    · rfl
    · exact setChild_isPathEnd _ _ _

theorem built_root (t : DataTrie) (h : Built t) : t.Root.isPathEnd = false := by
  induction h with
  | new => rfl
  | add t w _ ih => simpa [DataTrie.add, addFrom_isPathEnd] using ih
  | del t w _ ih => simpa [DataTrie.del, delFrom_isPathEnd] using ih

theorem built_Add (t : DataTrie) (ws : List (List Rune)) (h : Built t) : Built (t.Add ws) := by
  induction ws generalizing t with
  | nil => exact h
  | cons w ws ih => exact ih (t.add w) (Built.add t w h)

theorem built_Del (t : DataTrie) (ws : List (List Rune)) (h : Built t) : Built (t.Del ws) := by
  induction ws generalizing t with
  | nil => exact h
  | cons w ws ih => exact ih (t.del w) (Built.del t w h)

theorem live_iff_accepts (t : DataTrie) (h : Built t) (w : List Rune) :
    Live t w ↔ t.Root.accepts w = true := by
  constructor
  · exact fun hl => hl.2
  · intro hacc
    refine ⟨?_, hacc⟩
    rintro rfl
    rw [accepts_nil, built_root t h] at hacc
    cases hacc

/-! ## The child map -/

theorem lookup_mapStore_same (r : Rune) (v : DataNode) (l : List (Rune × DataNode)) :
    List.lookup r (mapStore r v l) = some v := by
  induction l with
  | nil => simp [mapStore, List.lookup]
  | cons e l ih =>
    obtain ⟨k, x⟩ := e
    simp only [mapStore]
    by_cases h : k = r
    · subst h
      simp [List.lookup]
    · have h2 : (k == r) = false := by simpa using h
      have h3 : (r == k) = false := by simpa using fun e => h e.symm
      simp only [h2, Bool.false_eq_true, if_false, List.lookup, h3]
      exact ih

theorem lookup_mapStore_ne (a r : Rune) (v : DataNode) (l : List (Rune × DataNode))
    (h : a ≠ r) : List.lookup a (mapStore r v l) = List.lookup a l := by
  induction l with
  | nil =>
    have h3 : (a == r) = false := by simpa using h
    simp [mapStore, List.lookup, h3]
  | cons e l ih =>
    obtain ⟨k, x⟩ := e
    simp only [mapStore]
    by_cases hk : k = r
    · subst hk
      have h3 : (a == k) = false := by simpa using h
      simp [List.lookup, h3]
    · have h2 : (k == r) = false := by simpa using hk
      simp only [h2, Bool.false_eq_true, if_false, List.lookup]
      cases (a == k) with
      | true => rfl
      | false => exact ih

theorem mapStore_mapStore (r : Rune) (v v1 : DataNode) (l : List (Rune × DataNode)) :
    mapStore r v (mapStore r v1 l) = mapStore r v l := by
  induction l with
  | nil => simp [mapStore]
  | cons e l ih =>
    obtain ⟨k, x⟩ := e
    by_cases hk : k = r
    · subst hk
      simp [mapStore]
    · have h2 : (k == r) = false := by simpa using hk
      simp only [mapStore, h2, Bool.false_eq_true, if_false, ih]

theorem mapStore_lookup_self (r : Rune) (v : DataNode) (l : List (Rune × DataNode))
    (h : List.lookup r l = some v) : mapStore r v l = l := by
  induction l with
  | nil => simp [List.lookup] at h
  | cons e l ih =>
    obtain ⟨k, x⟩ := e
    by_cases hk : k = r
    · subst hk
      simp only [List.lookup, beq_self_eq_true, Option.some.injEq] at h
      subst h
      simp [mapStore]
    · have h2 : (k == r) = false := by simpa using hk
      have h3 : (r == k) = false := by simpa using fun e => hk e.symm
      simp only [List.lookup, h3] at h
      simp only [mapStore, h2, Bool.false_eq_true, if_false, ih h]

theorem node_eta (n : DataNode) :
    DataNode.mk n.isRootNode n.isPathEnd n.Character n.Children = n := by
  cases n; rfl

theorem child_setChild_same (n v : DataNode) (r : Rune) : (n.setChild r v).child r = some v := by
  simp only [DataNode.child, DataNode.setChild, DataNode.Children]
  exact lookup_mapStore_same r v _

theorem child_setChild_ne (n v : DataNode) (a r : Rune) (h : a ≠ r) :
    (n.setChild r v).child a = n.child a := by
  simp only [DataNode.child, DataNode.setChild, DataNode.Children]
  exact lookup_mapStore_ne a r v _ h

theorem setChild_setChild (n v v1 : DataNode) (r : Rune) :
    (n.setChild r v1).setChild r v = n.setChild r v := by
  simp only [DataNode.setChild, DataNode.Children, DataNode.isRootNode, DataNode.isPathEnd,
    DataNode.Character, mapStore_mapStore]

theorem setChild_child_self (n v : DataNode) (r : Rune) (h : n.child r = some v) :
    n.setChild r v = n := by
  simp only [DataNode.setChild, mapStore_lookup_self r v _ h]
  exact node_eta n

theorem info_setChild (n v : DataNode) (r : Rune) : (n.setChild r v).info = n.info := rfl

theorem infoAt_nil (n : DataNode) : n.infoAt [] = some n.info := rfl

theorem infoAt_cons (n : DataNode) (a : Rune) (w : List Rune) :
    n.infoAt (a :: w) = match n.child a with
      | none => none
      | some c => c.infoAt w := by
  simp only [DataNode.infoAt, DataNode.walk]
  cases n.child a <;> rfl

theorem accepts_eq_infoAt (n : DataNode) (w : List Rune) :
    n.accepts w = ((n.infoAt w).map (fun i => i.2.1)).getD false := by
  simp only [DataNode.accepts, DataNode.infoAt]
  cases n.walk w <;> rfl

theorem infoAt_markPathEnd (c : DataNode) (w : List Rune) :
    c.markPathEnd.infoAt w
      = if w = [] then some (c.isRootNode, true, c.Character) else c.infoAt w := by
  cases w with
  | nil => rfl
  | cons a w => simp [infoAt_cons, DataNode.child, DataNode.markPathEnd, DataNode.Children]

theorem infoAt_SoftDel (c : DataNode) (w : List Rune) :
    c.SoftDel.infoAt w
      = if w = [] then some (c.isRootNode, false, c.Character) else c.infoAt w := by
  cases w with
  | nil => rfl
  | cons a w => simp [infoAt_cons, DataNode.child, DataNode.SoftDel, DataNode.Children]

theorem infoAt_NewDataNode (r : Rune) (w : List Rune) :
    (NewDataNode r).infoAt w = if w = [] then some (false, false, r) else none := by
  cases w with
  | nil => rfl
  | cons a w => simp [infoAt_cons, DataNode.child, NewDataNode, DataNode.Children, List.lookup]

theorem infoAt_delFrom (p : List Rune) : ∀ (n : DataNode) (w : List Rune),
    (delFrom p n).infoAt w
      = if w = p ∧ p ≠ [] then (n.infoAt w).map (fun i => (i.1, false, i.2.2))
        else n.infoAt w := by
  induction p with
  | nil => intro n w; simp [delFrom]
  | cons r rest ih =>
    intro n w
    simp only [delFrom]
    cases hc : n.child r with
    | none =>
      simp only
      split
      next h =>
        rw [h.1, infoAt_cons, hc]
        rfl
      next h => rfl
    | some next =>
      simp only
      cases w with
      | nil => simp [infoAt_nil, info_setChild]
      | cons a w1 =>
        by_cases ha : a = r
        · subst ha
          rw [infoAt_cons, child_setChild_same, infoAt_cons, hc]
          simp only [ih]
          cases rest with
          | nil =>
            simp only [List.isEmpty_nil, if_true, ne_eq, not_true_eq_false, and_false, if_false,
              infoAt_SoftDel, List.cons.injEq, true_and, List.cons_ne_nil, not_false_eq_true,
              and_true]
            cases w1 with
            | nil => simp [infoAt_nil, DataNode.info]
            | cons b w2 => simp
          | cons s rest1 =>
            simp only [List.isEmpty_cons, Bool.false_eq_true, if_false, ne_eq, List.cons_ne_nil,
              not_false_eq_true, and_true, List.cons.injEq, true_and]
        · rw [infoAt_cons, child_setChild_ne _ _ _ _ ha]
          have hne : ¬ (a :: w1 = r :: rest ∧ r :: rest ≠ []) := by
            rintro ⟨h, _⟩
            exact ha (List.cons.inj h).1
          rw [if_neg hne, infoAt_cons]

theorem infoAt_addFrom (p : List Rune) : ∀ (n : DataNode) (w : List Rune),
    (addFrom p n).infoAt w
      = if w ≠ [] ∧ w <+: p then
          (match n.infoAt w with
            | some i => some (i.1, i.2.1 || decide (w = p), i.2.2)
            | none => some (false, decide (w = p), w.getLastD 0))
        else n.infoAt w := by
  induction p with
  | nil =>
    intro n w
    have : ¬ (w ≠ [] ∧ w <+: []) := by
      rintro ⟨h1, h2⟩
      exact h1 (List.prefix_nil.mp h2)
    rw [if_neg this]
    rfl
  | cons r rest ih =>
    intro n w
    simp only [addFrom]
    cases w with
    | nil => simp [infoAt_nil, info_setChild]
    | cons a w1 =>
      by_cases ha : a = r
      · subst ha
        rw [infoAt_cons, child_setChild_same]
        simp only
        rw [ih, infoAt_cons]
        have hpre : (a :: w1 <+: a :: rest) ↔ w1 <+: rest := by
          rw [List.cons_prefix_cons]; simp
        simp only [ne_eq, List.cons_ne_nil, not_false_eq_true, true_and, hpre, List.cons.injEq]
        cases w1 with
        | nil =>
          simp only [not_true_eq_false, false_and, if_false, List.nil_prefix, if_true,
            List.getLastD_cons, List.getLastD_nil]
          cases hc : n.child a with
          | none =>
            cases rest with
            | nil => simp [infoAt_nil, DataNode.info, DataNode.markPathEnd, NewDataNode,
                DataNode.isRootNode, DataNode.isPathEnd, DataNode.Character]
            | cons s rest1 => simp [infoAt_nil, DataNode.info, NewDataNode,
                DataNode.isRootNode, DataNode.isPathEnd, DataNode.Character]
          | some c =>
            cases rest with
            | nil => simp [infoAt_nil, DataNode.info, DataNode.markPathEnd,
                DataNode.isRootNode, DataNode.isPathEnd, DataNode.Character]
            | cons s rest1 => simp [infoAt_nil, DataNode.info]
        | cons b w2 =>
          have hbase : ∀ x : DataNode,
              (if rest.isEmpty = true then x.markPathEnd else x).infoAt (b :: w2)
                = x.infoAt (b :: w2) := by
            intro x
            split
            · rw [infoAt_markPathEnd]; simp
            · rfl
          simp only [ne_eq, List.cons_ne_nil, not_false_eq_true, true_and, hbase]
          cases hc : n.child a with
          | none => simp [infoAt_NewDataNode]
          | some c => simp
      · rw [infoAt_cons, child_setChild_ne _ _ _ _ ha]
        have hne : ¬ (a :: w1 ≠ [] ∧ a :: w1 <+: r :: rest) := by
          rintro ⟨_, h⟩
          exact ha (List.cons_prefix_cons.mp h).1
        rw [if_neg hne, infoAt_cons]

/-! ## Insertion and soft deletion -/

theorem accepts_addFrom (p : List Rune) (n : DataNode) (w : List Rune) :
    (addFrom p n).accepts w = if w = p ∧ p ≠ [] then true else n.accepts w := by
  rw [accepts_eq_infoAt, accepts_eq_infoAt, infoAt_addFrom]
  by_cases h1 : w ≠ [] ∧ w <+: p
  · rw [if_pos h1]
    by_cases h2 : w = p
    · subst h2
      rw [if_pos ⟨rfl, h1.1⟩]
      cases n.infoAt w <;> simp
    · rw [if_neg (fun h => h2 h.1)]
      cases n.infoAt w <;> simp [h2]
  · rw [if_neg h1, if_neg]
    rintro ⟨rfl, h3⟩
    exact h1 ⟨h3, List.prefix_refl _⟩

theorem accepts_delFrom (p : List Rune) (n : DataNode) (w : List Rune) :
    (delFrom p n).accepts w = if w = p ∧ p ≠ [] then false else n.accepts w := by
  rw [accepts_eq_infoAt, accepts_eq_infoAt, infoAt_delFrom]
  by_cases h : w = p ∧ p ≠ []
  · rw [if_pos h, if_pos h]
    cases n.infoAt w <;> simp
  · rw [if_neg h, if_neg h]

theorem add_single (t : DataTrie) (w : List Rune) : t.Add [w] = t.add w := rfl

theorem del_single (t : DataTrie) (w : List Rune) : t.Del [w] = t.del w := rfl

theorem accepts_new (w : List Rune) : NewDataTrie.Root.accepts w = false := by
  cases w with
  | nil => rfl
  | cons a w => simp [accepts_cons, DataNode.child, NewDataTrie, NewDataRootNode,
      DataNode.Children, List.lookup]

theorem accepts_apply (t : DataTrie) (o : DictOp) (w : List Rune) (hw : w ≠ []) :
    (o.apply t).Root.accepts w = true ↔
      (o = DictOp.add w) ∨ (t.Root.accepts w = true ∧ o.arg ≠ w) := by
  cases o with
  | add p =>
    simp only [DictOp.apply, add_single, DataTrie.add, accepts_addFrom, DictOp.arg,
      DictOp.add.injEq]
    by_cases h : w = p
    · subst h
      simp [hw]
    · have h2 : ¬ p = w := fun e => h e.symm
      simp [h, h2]
  | del p =>
    simp only [DictOp.apply, del_single, DataTrie.del, accepts_delFrom, DictOp.arg]
    by_cases h : w = p
    · subst h
      simp [hw]
    · have h2 : ¬ p = w := fun e => h e.symm
      simp [h, h2]

theorem accepts_runOps (ops : List DictOp) : ∀ (t : DataTrie) (w : List Rune), w ≠ [] →
    ((runOps t ops).Root.accepts w = true ↔
      (∃ pre post, ops = pre ++ DictOp.add w :: post ∧ ∀ o ∈ post, o.arg ≠ w) ∨
      (t.Root.accepts w = true ∧ ∀ o ∈ ops, o.arg ≠ w)) := by
  induction ops with
  | nil =>
    intro t w _
    simp [runOps]
  | cons o rest ih =>
    intro t w hw
    have hrun : runOps t (o :: rest) = runOps (o.apply t) rest := rfl
    rw [hrun, ih (o.apply t) w hw, accepts_apply t o w hw]
    constructor
    · rintro (⟨pre, post, rfl, hpost⟩ | ⟨(rfl | ⟨hacc, harg⟩), hrest⟩)
      · exact Or.inl ⟨o :: pre, post, rfl, hpost⟩
      · exact Or.inl ⟨[], rest, rfl, hrest⟩
      · refine Or.inr ⟨hacc, ?_⟩
        intro o1 ho1
        rcases List.mem_cons.mp ho1 with rfl | h
        · exact harg
        · exact hrest o1 h
    · rintro (⟨pre, post, hsplit, hpost⟩ | ⟨hacc, hall⟩)
      · cases pre with
        | nil =>
          simp only [List.nil_append, List.cons.injEq] at hsplit
          obtain ⟨rfl, rfl⟩ := hsplit
          exact Or.inr ⟨Or.inl rfl, hpost⟩
        | cons o1 pre1 =>
          simp only [List.cons_append, List.cons.injEq] at hsplit
          obtain ⟨rfl, rfl⟩ := hsplit
          exact Or.inl ⟨pre1, post, rfl, hpost⟩
      · exact Or.inr ⟨Or.inr ⟨hacc, hall o (List.mem_cons_self _ _)⟩,
          fun o1 ho1 => hall o1 (List.mem_cons_of_mem _ ho1)⟩

theorem accepts_iff_walk (n : DataNode) (w : List Rune) :
    n.accepts w = true ↔ ∃ m, n.walk w = some m ∧ m.isPathEnd = true := by
  simp only [DataNode.accepts]
  cases n.walk w <;> simp

/-- C11: the dictionary membership invariant.  After any finite sequence of
single-phrase `Add` and `Del` operations on `NewDataTrie`, the path spelling a
non-empty `w` exists from the root and ends at a node flagged as path end
exactly when the most recent operation whose argument is `w` is an `Add`: the
sequence is `pre`, then `Add(w)`, then operations on other phrases only. -/
theorem membership_invariant (ops : List DictOp) (w : List Rune) (hw : w ≠ []) :
    (∃ m, (runOps NewDataTrie ops).Root.walk w = some m ∧ m.isPathEnd = true) ↔
      ∃ pre post, ops = pre ++ DictOp.add w :: post ∧ ∀ o ∈ post, o.arg ≠ w := by
  rw [← accepts_iff_walk, accepts_runOps ops NewDataTrie w hw, accepts_new]
  simp

/-- C11, witness: "bad" after `Add("bad")`, `Del("bad")`, `Add("bad")`,
`Add("word")`. -/
theorem membership_invariant_witness :
    wBad ≠ [] ∧
      ((∃ m, (runOps NewDataTrie [DictOp.add wBad, DictOp.del wBad, DictOp.add wBad,
          DictOp.add wWord]).Root.walk wBad = some m ∧ m.isPathEnd = true) ↔
        ∃ pre post, [DictOp.add wBad, DictOp.del wBad, DictOp.add wBad, DictOp.add wWord]
          = pre ++ DictOp.add wBad :: post ∧ ∀ o ∈ post, o.arg ≠ wBad) :=
  ⟨by decide, membership_invariant _ wBad (by decide)⟩

theorem softDel_of_not_end (c : DataNode) (h : c.isPathEnd = false) : c.SoftDel = c := by
  cases c
  simp only [DataNode.isPathEnd] at h
  subst h
  rfl

theorem delFrom_noop (p : List Rune) : ∀ n : DataNode,
    (p = [] ∨ n.accepts p = false) → delFrom p n = n := by
  induction p with
  | nil => intro n _; rfl
  | cons r rest ih =>
    intro n h
    have hacc : n.accepts (r :: rest) = false := by
      rcases h with h | h
      · cases h
      · exact h
    simp only [delFrom]
    cases hc : n.child r with
    | none => rfl
    | some next =>
      simp only [accepts_cons, hc] at hacc
      simp only
      cases rest with
      | nil =>
        rw [accepts_nil] at hacc
        simp only [List.isEmpty_nil, if_true, delFrom, softDel_of_not_end next hacc]
        exact setChild_child_self n next r hc
      | cons s rest1 =>
        simp only [List.isEmpty_cons, Bool.false_eq_true, if_false]
        rw [ih next (Or.inr hacc)]
        exact setChild_child_self n next r hc

theorem trie_eta (t : DataTrie) : (⟨t.Root⟩ : DataTrie) = t := rfl

/-- C12: deletion is idempotent and silent on absent phrases.  Deleting `P`
twice gives the trie that deleting it once gives; and when `P` is not a live
phrase (it is empty, or its path is missing, or its last node is not flagged
as path end) deleting it leaves the trie as it is. -/
theorem Del_idempotent_silent (t : DataTrie) (P : List Rune) :
    (t.Del [P]).Del [P] = t.Del [P] ∧
      ((P = [] ∨ t.Root.walk P = none ∨
          ∃ m, t.Root.walk P = some m ∧ m.isPathEnd = false) → t.Del [P] = t) ∧
      (¬ Live t P → t.Del [P] = t) := by
  have hno : ∀ t1 : DataTrie, (P = [] ∨ t1.Root.accepts P = false) → t1.Del [P] = t1 := by
    intro t1 h
    rw [del_single, DataTrie.del, delFrom_noop P t1.Root h]
  refine ⟨?_, ?_, ?_⟩
  · apply hno
    by_cases hP : P = []
    · exact Or.inl hP
    · right
      rw [del_single, DataTrie.del, accepts_delFrom, if_pos ⟨rfl, hP⟩]
  · intro h
    apply hno
    rcases h with h | h | ⟨m, h1, h2⟩
    · exact Or.inl h
    · right
      simp [DataNode.accepts, h]
    · right
      simp [DataNode.accepts, h1, h2]
  · intro h
    apply hno
    by_cases hP : P = []
    · exact Or.inl hP
    · right
      cases hacc : t.Root.accepts P with
      | false => rfl
      | true => exact absurd ⟨hP, hacc⟩ h

theorem mark_softDel_mark (c : DataNode) : c.markPathEnd.SoftDel.markPathEnd = c.markPathEnd := rfl

theorem addFrom_delFrom_addFrom (p : List Rune) : ∀ n : DataNode,
    addFrom p (delFrom p (addFrom p n)) = addFrom p n := by
  induction p with
  | nil => intro n; rfl
  | cons r rest ih =>
    intro n
    cases rest with
    | nil =>
      simp only [addFrom, delFrom, List.isEmpty_nil, if_true, child_setChild_same,
        setChild_setChild, mark_softDel_mark]
    | cons s rest1 =>
      have hadd : ∀ m : DataNode, addFrom (r :: s :: rest1) m
          = m.setChild r (addFrom (s :: rest1)
              (match m.child r with
                | some next => next
                | none => NewDataNode r)) := by
        intro m
        rfl
      have hdel : ∀ (m x : DataNode), delFrom (r :: s :: rest1) (m.setChild r x)
          = m.setChild r (delFrom (s :: rest1) x) := by
        intro m x
        rw [delFrom]
        simp only [child_setChild_same, List.isEmpty_cons, Bool.false_eq_true, if_false,
          setChild_setChild]
      rw [hadd n, hdel, hadd, child_setChild_same, setChild_setChild]
      simp only
      rw [ih]

theorem live_add (t : DataTrie) (P : List Rune) (hP : P ≠ []) : Live (t.Add [P]) P := by
  refine ⟨hP, ?_⟩
  rw [add_single, DataTrie.add, accepts_addFrom, if_pos ⟨rfl, hP⟩]

theorem Validate_of_live (t : DataTrie) (P : List Rune) (h : Live t P) :
    ∃ w, t.Validate P = some (false, w) := by
  rcases (Validate_cases t P).2 with ⟨_, hclean⟩ | ⟨l, w, hv, _⟩
  · exact absurd ⟨P, h, List.infix_refl P⟩ hclean
  · exact ⟨w, hv⟩

/-- C13: insert, delete, insert restores detectability.  For a non-empty
phrase `P`, the trie after `Add(P)`, `Del(P)`, `Add(P)` is the trie after
`Add(P)`, so `Validate` returns the same pair on every text, and it reports
`P` itself invalid in both. -/
theorem add_del_add_restores (t : DataTrie) (P text : List Rune) (hP : P ≠ []) :
    ((t.Add [P]).Del [P]).Add [P] = t.Add [P] ∧
      (((t.Add [P]).Del [P]).Add [P]).Validate text = (t.Add [P]).Validate text ∧
      (∃ w, (((t.Add [P]).Del [P]).Add [P]).Validate P = some (false, w)) ∧
      (∃ w, (t.Add [P]).Validate P = some (false, w)) := by
  have heq : ((t.Add [P]).Del [P]).Add [P] = t.Add [P] := by
    simp only [add_single, del_single, DataTrie.add, DataTrie.del, addFrom_delFrom_addFrom]
  refine ⟨heq, by rw [heq], ?_, Validate_of_live _ P (live_add t P hP)⟩
  rw [heq]
  exact Validate_of_live _ P (live_add t P hP)

/-- C13, witness: the phrase "bad" on the dictionary {"ab"} and the text
"badword". -/
theorem add_del_add_restores_witness :
    wBad ≠ [] ∧
      (((dictAb.Add [wBad]).Del [wBad]).Add [wBad] = dictAb.Add [wBad] ∧
        (((dictAb.Add [wBad]).Del [wBad]).Add [wBad]).Validate wBadword
          = (dictAb.Add [wBad]).Validate wBadword ∧
        (∃ w, (((dictAb.Add [wBad]).Del [wBad]).Add [wBad]).Validate wBad = some (false, w)) ∧
        (∃ w, (dictAb.Add [wBad]).Validate wBad = some (false, w))) :=
  ⟨by decide, add_del_add_restores dictAb wBad wBadword (by decide)⟩

/-- C14: the soft-delete frame.  `Del(T, P)` has the same root paths as `T`;
the node at every path other than `P` keeps all its fields, the path-end flag
among them, and at `P` only the flag is cleared; so every live phrase other
than `P` stays live. -/
theorem Del_frame (t : DataTrie) (P : List Rune) :
    (∀ w, ((t.Del [P]).Root.walk w).isSome = (t.Root.walk w).isSome) ∧
      (∀ w, w ≠ P →
        ((t.Del [P]).Root.walk w).map DataNode.info = (t.Root.walk w).map DataNode.info) ∧
      ((t.Del [P]).Root.walk P).map (fun m => (m.isRootNode, m.Character))
        = (t.Root.walk P).map (fun m => (m.isRootNode, m.Character)) ∧
      (∀ Q, Live t Q → Q ≠ P → Live (t.Del [P]) Q) := by
  have hinfo : ∀ w, ((t.Del [P]).Root.walk w).map DataNode.info
      = if w = P ∧ P ≠ [] then ((t.Root.walk w).map DataNode.info).map
          (fun i => (i.1, false, i.2.2))
        else (t.Root.walk w).map DataNode.info := fun w => infoAt_delFrom P t.Root w
  refine ⟨?_, ?_, ?_, ?_⟩
  · intro w
    have h := congrArg Option.isSome (hinfo w)
    simp only [Option.isSome_map'] at h
    rw [h]
    split <;> simp
  · intro w hw
    rw [hinfo w, if_neg (fun h => hw h.1)]
  · by_cases hP : P = []
    · subst hP
      rfl
    · have h := hinfo P
      rw [if_pos ⟨rfl, hP⟩] at h
      have h2 := congrArg (Option.map (fun i : Bool × Bool × Rune => (i.1, i.2.2))) h
      simp only [Option.map_map] at h2
      exact h2
  · intro Q hQ hne
    refine ⟨hQ.1, ?_⟩
    rw [del_single, DataTrie.del, accepts_delFrom, if_neg (fun h => hne h.1)]
    exact hQ.2

theorem add_nil (t : DataTrie) : t.add [] = t := rfl

theorem Add_filter (ws : List (List Rune)) : ∀ t : DataTrie,
    t.Add ws = t.Add (ws.filter (fun w => !w.isEmpty)) := by
  induction ws with
  | nil => intro t; rfl
  | cons w ws ih =>
    intro t
    cases w with
    | nil =>
      simp only [List.filter_cons, List.isEmpty_nil, Bool.not_true, Bool.false_eq_true,
        if_false]
      exact ih t
    | cons a w1 =>
      simp only [List.filter_cons, List.isEmpty_cons, Bool.not_false, if_true]
      exact ih (t.add (a :: w1))

theorem Validate_ne_empty (t : DataTrie) (text : List Rune) :
    t.Validate text ≠ some (false, []) := by
  intro h
  rcases (Validate_cases t text).2 with ⟨h1, _⟩ | ⟨l, w, hv, hlive, _⟩
  · rw [h1] at h
    cases h
  · rw [hv] at h
    cases h
    exact hlive.1 rfl

/-- C15: empty phrases are a no-op and do not abort a batch.  `Add(T, ws)` is
`Add(T, ws` without its empty strings`)`; the tries built from `NewDataTrie`
are closed under `Add` and `Del` of batches, their root is never flagged as
path end, and `Validate` never returns `(false, "")` on them. -/
theorem empty_phrase_noop :
    (∀ (t : DataTrie) (ws : List (List Rune)),
      t.Add ws = t.Add (ws.filter (fun w => !w.isEmpty))) ∧
    (∀ (t : DataTrie) (ws : List (List Rune)), Built t → Built (t.Add ws) ∧ Built (t.Del ws)) ∧
    (∀ t : DataTrie, Built t →
      t.Root.isPathEnd = false ∧ ∀ text, t.Validate text ≠ some (false, [])) :=
  ⟨fun t ws => Add_filter ws t,
    fun t ws h => ⟨built_Add t ws h, built_Del t ws h⟩,
    fun t h => ⟨built_root t h, fun text => Validate_ne_empty t text⟩⟩

/-! ## Order of the phrases in one call -/

theorem addFrom_congr (p : List Rune) (n1 n2 : DataNode)
    (h : ∀ w, n1.infoAt w = n2.infoAt w) (w : List Rune) :
    (addFrom p n1).infoAt w = (addFrom p n2).infoAt w := by
  rw [infoAt_addFrom, infoAt_addFrom, h w]

theorem delFrom_congr (p : List Rune) (n1 n2 : DataNode)
    (h : ∀ w, n1.infoAt w = n2.infoAt w) (w : List Rune) :
    (delFrom p n1).infoAt w = (delFrom p n2).infoAt w := by
  rw [infoAt_delFrom, infoAt_delFrom, h w]

theorem addFrom_comm (p q : List Rune) (n : DataNode) (w : List Rune) :
    (addFrom p (addFrom q n)).infoAt w = (addFrom q (addFrom p n)).infoAt w := by
  rw [infoAt_addFrom p, infoAt_addFrom q, infoAt_addFrom q, infoAt_addFrom p]
  by_cases hp : w ≠ [] ∧ w <+: p <;> by_cases hq : w ≠ [] ∧ w <+: q
  · simp only [if_pos hp, if_pos hq]
    cases n.infoAt w with
    | none => simp [Bool.or_comm]
    | some i => simp [Bool.or_assoc, Bool.or_comm (decide (w = p))]
  · simp only [if_pos hp, if_neg hq]
  · simp only [if_neg hp, if_pos hq]
  · simp only [if_neg hp, if_neg hq]

theorem delFrom_comm (p q : List Rune) (n : DataNode) (w : List Rune) :
    (delFrom p (delFrom q n)).infoAt w = (delFrom q (delFrom p n)).infoAt w := by
  rw [infoAt_delFrom p, infoAt_delFrom q, infoAt_delFrom q, infoAt_delFrom p]
  by_cases hp : w = p ∧ p ≠ [] <;> by_cases hq : w = q ∧ q ≠ []
  · simp only [if_pos hp, if_pos hq]
  · simp only [if_pos hp, if_neg hq]
  · simp only [if_neg hp, if_pos hq]
  · simp only [if_neg hp, if_neg hq]

theorem foldl_same (op : DataTrie → List Rune → DataTrie)
    (hcongr : ∀ t1 t2 x, SameTrie t1 t2 → SameTrie (op t1 x) (op t2 x))
    (ws : List (List Rune)) : ∀ t1 t2, SameTrie t1 t2 →
      SameTrie (ws.foldl op t1) (ws.foldl op t2) := by
  induction ws with
  | nil => intro t1 t2 h; exact h
  | cons x ws ih => intro t1 t2 h; exact ih _ _ (hcongr t1 t2 x h)

theorem foldl_perm_same (op : DataTrie → List Rune → DataTrie)
    (hcongr : ∀ t1 t2 x, SameTrie t1 t2 → SameTrie (op t1 x) (op t2 x))
    (hcomm : ∀ t x y, SameTrie (op (op t x) y) (op (op t y) x))
    (ws ws1 : List (List Rune)) (hperm : ws.Perm ws1) :
    ∀ t1 t2, SameTrie t1 t2 → SameTrie (ws.foldl op t1) (ws1.foldl op t2) := by
  induction hperm with
  | nil => intro t1 t2 h; exact h
  | cons x _ ih => intro t1 t2 h; exact ih _ _ (hcongr t1 t2 x h)
  | swap x y l =>
    intro t1 t2 h
    simp only [List.foldl_cons]
    apply foldl_same op hcongr l
    intro w
    rw [hcomm t1 y x w]
    exact hcongr _ _ y (hcongr t1 t2 x h) w
  | trans _ _ ih1 ih2 =>
    intro t1 t2 h w
    rw [ih1 t1 t1 (fun _ => rfl) w]
    exact ih2 t1 t2 h w

/-- C16: the order of the phrases within one call is irrelevant.  When `ws1`
is a permutation of `ws`, `Add(T, ws)` and `Add(T, ws1)` are the same trie (the
same root paths, with the same fields at the end of each), and so are
`Del(T, ws)` and `Del(T, ws1)`. -/
theorem batch_order_irrelevant (t : DataTrie) (ws ws1 : List (List Rune))
    (hperm : ws.Perm ws1) :
    SameTrie (t.Add ws) (t.Add ws1) ∧ SameTrie (t.Del ws) (t.Del ws1) := by
  constructor
  · exact foldl_perm_same DataTrie.add
      (fun t1 t2 x h => addFrom_congr x t1.Root t2.Root h)
      (fun t x y => addFrom_comm y x t.Root) ws ws1 hperm t t (fun _ => rfl)
  · exact foldl_perm_same DataTrie.del
      (fun t1 t2 x h => delFrom_congr x t1.Root t2.Root h)
      (fun t x y => delFrom_comm y x t.Root) ws ws1 hperm t t (fun _ => rfl)

/-- C16, witness: "bad", "word" against "word", "bad", added to and deleted
from the dictionary {"bad", "word", "badword"}. -/
theorem batch_order_irrelevant_witness :
    [wBad, wWord].Perm [wWord, wBad] ∧
      SameTrie (dictBad.Add [wBad, wWord]) (dictBad.Add [wWord, wBad]) ∧
      SameTrie (dictBad.Del [wBad, wWord]) (dictBad.Del [wWord, wBad]) :=
  ⟨List.Perm.swap _ _ _, batch_order_irrelevant dictBad _ _ (List.Perm.swap _ _ _)⟩

/-! ## Validate against FindAll -/

theorem allEnds_of_firstEnd_none (node : DataNode) (s : List Rune)
    (h : firstEnd node s = none) : allEnds node s = [] := by
  induction s generalizing node with
  | nil => rfl
  | cons r rest ih =>
    simp only [firstEnd] at h
    simp only [allEnds]
    cases hc : node.child r with
    | none => rfl
    | some cur =>
      simp only [hc] at h
      cases he : cur.isPathEnd with
      | true => simp [he] at h
      | false =>
        simp only [he, Bool.false_eq_true, if_false, Option.map_eq_none'] at h
        simp [ih cur h, he]

theorem allEnds_of_firstEnd_some (node : DataNode) (s : List Rune) (k : Nat)
    (h : firstEnd node s = some k) : ∃ rest, allEnds node s = k :: rest := by
  induction s generalizing node k with
  | nil => simp [firstEnd] at h
  | cons r rest ih =>
    simp only [firstEnd] at h
    simp only [allEnds]
    cases hc : node.child r with
    | none => simp [hc] at h
    | some cur =>
      simp only [hc] at h
      cases he : cur.isPathEnd with
      | true =>
        simp only [he, if_true, Option.some.injEq] at h
        subst h
        exact ⟨_, by simp only [he, if_true]; rfl⟩
      | false =>
        simp only [he, Bool.false_eq_true, if_false, Option.map_eq_some'] at h
        obtain ⟨k1, hk1, rfl⟩ := h
        obtain ⟨rest1, hr⟩ := ih cur k1 hk1
        exact ⟨rest1.map (fun k => k + 1), by simp [hr, he]⟩

theorem findSpec_of_validateSpec (root : DataNode) (s : List Rune) :
    (validateSpec root s = (true, []) ∧ findSpec root s = []) ∨
      ∃ w rest, validateSpec root s = (false, w) ∧ findSpec root s = w :: rest := by
  induction s with
  | nil => exact Or.inl ⟨rfl, rfl⟩
  | cons r rest ih =>
    simp only [validateSpec, findSpec]
    cases hf : firstEnd root (r :: rest) with
    | none =>
      rw [allEnds_of_firstEnd_none root _ hf]
      simpa using ih
    | some k =>
      obtain ⟨ks, hks⟩ := allEnds_of_firstEnd_some root _ k hf
      rw [hks]
      exact Or.inr ⟨_, ks.map (fun k => (r :: rest).take k) ++ findSpec root rest, rfl,
        by simp only [List.map_cons, List.cons_append]⟩

theorem keepFirst_cons (x : List Rune) (xs : List (List Rune)) :
    ∃ rest, keepFirst (x :: xs) = x :: rest := ⟨_, rfl⟩

/-- C19: `Validate` and `FindAll` agree.  `Validate` answers `(true, "")`
exactly when `FindAll` returns the empty list, and when `Validate` answers
`(false, w)` the first element of the result of `FindAll` is `w`. -/
theorem Validate_FindAll_agree (t : DataTrie) (text : List Rune) :
    (t.Validate text = some (true, []) ↔ t.FindAll text = some []) ∧
      ∀ w, t.Validate text = some (false, w) → ∃ rest, t.FindAll text = some (w :: rest) := by
  rw [Validate_eq_spec, FindAll_eq_spec, ← findSpec_eq_liveWindows]
  rcases findSpec_of_validateSpec t.Root text with ⟨h1, h2⟩ | ⟨w, rest, h1, h2⟩
  · rw [h1, h2]
    refine ⟨⟨fun _ => rfl, fun _ => rfl⟩, ?_⟩
    intro w hw
    simp at hw
  · rw [h1, h2]
    obtain ⟨rest1, hk⟩ := keepFirst_cons w rest
    rw [hk]
    refine ⟨⟨fun h => by simp at h, fun h => by simp at h⟩, ?_⟩
    intro w1 hw1
    simp only [Option.some.injEq, Prod.mk.injEq, true_and] at hw1
    subst hw1
    exact ⟨rest1, rfl⟩

/-! ## Validate after Replace -/

theorem mask_keeps_clean (t : DataTrie) (c : Rune) (hc : ∀ w, Live t w → c ∉ w)
    (buf : List Rune) (lo hi a : Nat) (h1 : lo ≤ hi) (h2 : hi ≤ buf.length)
    (w : List Rune) (hw : Live t w) (hpre : w <+: (maskTo c buf lo hi).drop a) :
    w <+: buf.drop a := by
  rw [List.isPrefix_iff] at hpre ⊢
  intro i hi
  have h := hpre i hi
  rw [List.getElem?_drop, getElem?_maskTo _ _ _ _ _ h1 h2] at h
  rw [List.getElem?_drop]
  split at h
  · have hci : c = w[i] := Option.some.inj h
    exact absurd (hci ▸ List.getElem_mem hi) (hc w hw)
  · exact h

theorem no_live_at_mask (t : DataTrie) (c : Rune) (hc : ∀ w, Live t w → c ∉ w)
    (buf : List Rune) (a : Nat) (ha : buf[a]? = some c) (w : List Rune) (hw : Live t w) :
    ¬ w <+: buf.drop a := by
  intro hpre
  rw [List.isPrefix_iff] at hpre
  have hpos : 0 < w.length := List.length_pos.mpr hw.1
  have h := hpre 0 hpos
  rw [List.getElem?_drop, Nat.add_zero, ha] at h
  have hci : c = w[0] := Option.some.inj h
  exact absurd (hci ▸ List.getElem_mem hpos) (hc w hw)

theorem no_live_past_end (t : DataTrie) (buf : List Rune) (a : Nat) (ha : buf.length ≤ a)
    (w : List Rune) (hw : Live t w) : ¬ w <+: buf.drop a := by
  intro hpre
  rw [List.drop_eq_nil_of_le ha, List.prefix_nil] at hpre
  exact hw.1 hpre

theorem replaceSpec_clean (t : DataTrie) (c : Rune) (hc : ∀ w, Live t w → c ∉ w) (m : Nat) :
    ∀ (l : Nat) (buf : List Rune), m = buf.length - l →
      (∀ a, a < l → ∀ w, Live t w → ¬ w <+: buf.drop a) →
      ∀ a w, Live t w → ¬ w <+: (replaceSpec t.Root c m l buf).drop a := by
  induction m with
  | zero =>
    intro l buf hm hq a w hw
    rw [replaceSpec]
    by_cases ha : a < l
    · exact hq a ha w hw
    · exact no_live_past_end t buf a (by omega) w hw
  | succ m ih =>
    intro l buf hm hq
    rw [replaceSpec]
    cases hl : lastEnd t.Root (buf.drop l) with
    | none =>
      simp only
      apply ih (l + 1) buf (by omega)
      intro a ha w hw hpre
      by_cases hal : a < l
      · exact hq a hal w hw hpre
      · have hal2 : a = l := by omega
        subst hal2
        have := firstEnd_none _ _ ((lastEnd_none_iff _ _).mp hl) w hw.1 hpre
        rw [hw.2] at this
        cases this
    | some k =>
      obtain ⟨h1, h2⟩ := lastEnd_bounds _ _ _ hl
      simp only [List.length_drop] at h2
      have hlen : (maskTo c buf l (l + k)).length = buf.length :=
        maskTo_length _ _ _ _ (by omega) (by omega)
      have hq2 : ∀ a, a < l + k → ∀ w, Live t w →
          ¬ w <+: (maskTo c buf l (l + k)).drop a := by
        intro a ha w hw hpre
        by_cases hal : a < l
        · exact hq a hal w hw (mask_keeps_clean t c hc buf l (l + k) a (by omega) (by omega)
            w hw hpre)
        · refine no_live_at_mask t c hc _ a ?_ w hw hpre
          rw [getElem?_maskTo _ _ _ _ _ (by omega) (by omega), if_pos (by omega)]
      simp only
      split
      next hend =>
        intro a w hw
        by_cases ha : a < l + k
        · exact hq2 a ha w hw
        · exact no_live_past_end t _ a (by omega) w hw
      next hend =>
        exact ih (l + 1) _ (by omega) (fun a ha => hq2 a (by omega))

theorem live_dictBadFFFD (w : List Rune) (h : Live dictBadFFFD w) :
    w = [98, 97, 100] ∨ w = [0xFFFD] := by
  have hd : dictBadFFFD
      = runOps NewDataTrie [DictOp.add [98, 97, 100], DictOp.add [0xFFFD]] := rfl
  have hacc := h.2
  rw [hd, accepts_runOps _ _ _ h.1, accepts_new] at hacc
  rcases hacc with ⟨pre, post, hsplit, _⟩ | ⟨hf, _⟩
  · have hmem : DictOp.add w ∈ [DictOp.add [98, 97, 100], DictOp.add [0xFFFD]] := by
      rw [hsplit]
      simp
    simp only [List.mem_cons, DictOp.add.injEq, List.mem_singleton, List.mem_nil_iff,
      or_false] at hmem
    exact hmem
  · cases hf

/-- C18, counterexample: with the dictionary {"bad", "\uFFFD"} the surrogate
half U+D800 occurs in no live phrase, yet `Replace("bad", U+D800)` returns
`string(runes)`, which holds U+FFFD at the three masked positions, and on this
text `Validate` answers `(false, "\uFFFD")`. -/
theorem Replace_surrogate_mask_found :
    (∀ w, Live dictBadFFFD w → (0xD800 : Rune) ∉ w) ∧
      dictBadFFFD.Replace wBad 0xD800 = some [0xFFFD, 0xFFFD, 0xFFFD] ∧
      dictBadFFFD.Validate [0xFFFD, 0xFFFD, 0xFFFD] = some (false, [0xFFFD]) ∧
      ¬ ∃ out, dictBadFFFD.Replace wBad 0xD800 = some out ∧
        dictBadFFFD.Validate out = some (true, []) := by
  have h1 : dictBadFFFD.Replace wBad 0xD800 = some [0xFFFD, 0xFFFD, 0xFFFD] := by decide
  have h2 : dictBadFFFD.Validate [0xFFFD, 0xFFFD, 0xFFFD] = some (false, [0xFFFD]) := by
    decide
  refine ⟨fun w g => ?_, h1, h2, ?_⟩
  · rcases live_dictBadFFFD w g with rfl | rfl <;> decide
  · rintro ⟨out, hout, hval⟩
    rw [h1] at hout
    cases hout
    rw [h2] at hval
    cases hval

/-- C18, amended: masking is effective when neither the mask nor the code
point that the returned string holds for it is a dictionary character.  For a
text of valid code points, as `[]rune(text)` always is, when `c` occurs in no
live phrase and what `string(runes)` makes of `c` (the code point `c` itself
when it is valid, U+FFFD when it is a surrogate half or lies above U+10FFFF)
occurs in no live phrase either, `Replace(text, c)` returns a text in which no
live phrase occurs: `Validate` answers `(true, "")` on it. -/
theorem Replace_then_Validate (t : DataTrie) (text : List Rune) (c : Rune)
    (hv : ∀ r ∈ text, validRune r = true)
    (hc : ∀ w, Live t w → c ∉ w)
    (hs : ∀ w, Live t w → stringRune c ∉ w) :
    ∃ out, t.Replace text c = some out ∧ t.Validate out = some (true, []) := by
  refine ⟨_, Replace_eq_spec t text c, ?_⟩
  rw [(Validate_cases t _).1, clean_iff]
  intro a w hw hpre
  apply replaceSpec_clean t c hc text.length 0 text rfl (fun a ha => by omega) a w hw
  rw [List.isPrefix_iff] at hpre ⊢
  intro i hi
  have h := hpre i hi
  rw [List.getElem?_drop, getElem?_stringOfRunes] at h
  rw [List.getElem?_drop]
  cases hb : (replaceSpec t.Root c text.length 0 text)[a + i]? with
  | none =>
    rw [hb] at h
    cases h
  | some x =>
    rw [hb, Option.map_some', Option.some.injEq] at h
    rcases mem_replaceSpec _ _ _ _ _ _ (List.mem_iff_getElem?.mpr ⟨_, hb⟩) with h1 | h1
    · rw [stringRune_valid _ (hv _ h1)] at h
      rw [h]
    · rw [h1] at h
      exact absurd (h ▸ List.getElem_mem hi) (hs w hw)

/-- C18, witness: the dictionary {"bad"}, whose only live phrase is "bad", the
text "badword" and the mask `*`, a valid code point. -/
theorem Replace_then_Validate_witness :
    (∀ r ∈ wBadword, validRune r = true) ∧
      (∀ w, Live dictBadOnly w → (42 : Rune) ∉ w) ∧
      (∀ w, Live dictBadOnly w → stringRune 42 ∉ w) ∧
      ∃ out, dictBadOnly.Replace wBadword 42 = some out ∧
        dictBadOnly.Validate out = some (true, []) :=
  have h0 : ∀ r ∈ wBadword, validRune r = true := by decide
  have h : ∀ w, Live dictBadOnly w → (42 : Rune) ∉ w := fun w g => by
    rw [live_dictBadOnly w g]
    decide
  have hs : ∀ w, Live dictBadOnly w → stringRune 42 ∉ w := fun w g => by
    rw [live_dictBadOnly w g]
    decide
  ⟨h0, h, hs, Replace_then_Validate dictBadOnly wBadword 42 h0 h hs⟩

/-! ## The cursors of a run -/

theorem passes_succ {σ ρ : Type} (step : σ → Step σ ρ) (fuel : Nat) (s : σ) :
    passes step (fuel + 1) s = s :: (match step s with
      | Step.next s1 => passes step fuel s1
      | Step.done _ => []
      | Step.fault => []) := rfl

theorem passes_forall {σ ρ : Type} (step : σ → Step σ ρ) (Inv : σ → Prop)
    (hinv : ∀ s s1, Inv s → step s = Step.next s1 → Inv s1) :
    ∀ fuel s, Inv s → ∀ x ∈ passes step fuel s, Inv x := by
  intro fuel
  induction fuel with
  | zero => intro s _ x hx; cases hx
  | succ fuel ih =>
    intro s hs x hx
    rw [passes_succ] at hx
    rcases List.mem_cons.mp hx with rfl | hx
    · exact hs
    · cases hst : step s with
      | next s1 =>
        rw [hst] at hx
        exact ih s1 (hinv s s1 hs hst) x hx
      | done r => rw [hst] at hx; cases hx
      | fault => rw [hst] at hx; cases hx

theorem passes_head {σ ρ : Type} (step : σ → Step σ ρ) (fuel : Nat) (s : σ) :
    ∀ y ∈ (passes step fuel s).head?, y = s := by
  cases fuel with
  | zero => intro y hy; cases hy
  | succ fuel =>
    intro y hy
    rw [passes_succ] at hy
    simpa using hy.symm

theorem passes_chain {σ ρ : Type} (step : σ → Step σ ρ) (Inv : σ → Prop) (R : σ → σ → Prop)
    (hinv : ∀ s s1, Inv s → step s = Step.next s1 → Inv s1)
    (hR : ∀ s s1, Inv s → step s = Step.next s1 → R s s1) :
    ∀ fuel s, Inv s → List.Chain' R (passes step fuel s) := by
  intro fuel
  induction fuel with
  | zero => intro s _; exact List.chain'_nil
  | succ fuel ih =>
    intro s hs
    rw [passes_succ, List.chain'_cons']
    cases hst : step s with
    | next s1 =>
      refine ⟨?_, ih s1 (hinv s s1 hs hst)⟩
      intro y hy
      rw [passes_head step fuel s1 y hy]
      exact hR s s1 hs hst
    | done r => exact ⟨fun y hy => (by cases hy), List.chain'_nil⟩
    | fault => exact ⟨fun y hy => (by cases hy), List.chain'_nil⟩

theorem passes_dropLast {σ ρ : Type} (step : σ → Step σ ρ) :
    ∀ fuel s, ∀ x ∈ (passes step fuel s).dropLast, ∃ x1, step x = Step.next x1 := by
  intro fuel
  induction fuel with
  | zero => intro s x hx; cases hx
  | succ fuel ih =>
    intro s x hx
    rw [passes_succ] at hx
    cases hst : step s with
    | next s1 =>
      rw [hst] at hx
      simp only at hx
      cases hp : passes step fuel s1 with
      | nil => rw [hp] at hx; cases hx
      | cons y ys =>
        rw [hp, List.dropLast_cons₂] at hx
        rcases List.mem_cons.mp hx with rfl | hx
        · exact ⟨s1, hst⟩
        · rw [← hp] at hx
          exact ih s1 x hx
    | done r => rw [hst] at hx; cases hx
    | fault => rw [hst] at hx; cases hx

theorem endsDone_of_iterate {σ ρ : Type} (step : σ → Step σ ρ) :
    ∀ fuel s r, iterate step fuel s = some r →
      ∃ last, (passes step fuel s).getLast? = some last ∧ step last = Step.done r := by
  intro fuel
  induction fuel with
  | zero => intro s r h; cases h
  | succ fuel ih =>
    intro s r h
    rw [passes_succ]
    simp only [iterate] at h
    cases hst : step s with
    | next s1 =>
      rw [hst] at h
      obtain ⟨last, h1, h2⟩ := ih s1 r h
      refine ⟨last, ?_, h2⟩
      simp only
      cases hp : passes step fuel s1 with
      | nil => rw [hp] at h1; cases h1
      | cons y ys =>
        rw [hp] at h1
        rw [List.getLast?_cons_cons]
        exact h1
    | done r1 =>
      rw [hst] at h
      cases h
      exact ⟨s, rfl, hst⟩
    | fault => rw [hst] at h; cases h

theorem cursorStep_inv (n : Nat) (a b : Cursor) (ha : a.left ≤ a.position)
    (h : CursorStep n a b) :
    (b.left ≤ b.position ∧ b.position ≤ n ∧ b.left ≤ n) ∧ LeftMoves a b := by
  obtain ⟨h1, h2 | h2 | h2⟩ := h <;>
    exact ⟨⟨by omega, by omega, by omega⟩, by omega, fun _ => by omega⟩

theorem backwardResets_le (n : Nat) : ∀ tr : List Cursor, List.Chain' LeftMoves tr →
    (∀ s ∈ tr, s.left ≤ n) → ∀ a ∈ tr.head?, backwardResets tr + a.left ≤ n := by
  intro tr
  induction tr with
  | nil => intro _ _ a ha; cases ha
  | cons x tr ih =>
    intro hch hle a ha
    simp only [List.head?_cons, Option.mem_def, Option.some.injEq] at ha
    subst ha
    cases tr with
    | nil =>
      simp only [backwardResets, Nat.zero_add]
      exact hle x (List.mem_cons_self _ _)
    | cons y ys =>
      rw [List.chain'_cons] at hch
      have h := ih hch.2 (fun s hs => hle s (List.mem_cons_of_mem _ hs)) y rfl
      obtain ⟨h1, h2⟩ := hch.1
      simp only [backwardResets]
      split
      next hb => have := h2 hb; omega
      next hb => omega

theorem leftGrowths_le (n : Nat) : ∀ tr : List Cursor, List.Chain' LeftMoves tr →
    (∀ s ∈ tr, s.left ≤ n) → ∀ a ∈ tr.head?, leftGrowths tr + a.left ≤ n := by
  intro tr
  induction tr with
  | nil => intro _ _ a ha; cases ha
  | cons x tr ih =>
    intro hch hle a ha
    simp only [List.head?_cons, Option.mem_def, Option.some.injEq] at ha
    subst ha
    cases tr with
    | nil =>
      simp only [leftGrowths, Nat.zero_add]
      exact hle x (List.mem_cons_self _ _)
    | cons y ys =>
      rw [List.chain'_cons] at hch
      have h := ih hch.2 (fun s hs => hle s (List.mem_cons_of_mem _ hs)) y rfl
      obtain ⟨h1, h2⟩ := hch.1
      simp only [leftGrowths]
      split
      next hb => omega
      next hb => omega

theorem run_cursors {σ ρ : Type} (step : σ → Step σ ρ) (cur : σ → Cursor) (n : Nat)
    (Inv : σ → Prop)
    (hstep : ∀ s s1, Inv s → step s = Step.next s1 → Inv s1 ∧ CursorStep n (cur s) (cur s1))
    (fuel : Nat) (s0 : σ) (h0 : Inv s0) (hc0 : (cur s0).left = 0 ∧ (cur s0).position = 0) :
    OrderlyRun n ((passes step fuel s0).map cur) ∧
      BoundedRun n ((passes step fuel s0).map cur) ∧
      ∀ s ∈ passes step fuel s0, Inv s := by
  have hinv : ∀ s s1,
      (Inv s ∧ (cur s).left ≤ (cur s).position ∧ (cur s).position ≤ n ∧ (cur s).left ≤ n) →
      step s = Step.next s1 →
      (Inv s1 ∧ (cur s1).left ≤ (cur s1).position ∧ (cur s1).position ≤ n ∧
        (cur s1).left ≤ n) := by
    intro s s1 hs hst
    obtain ⟨h1, h2⟩ := hstep s s1 hs.1 hst
    obtain ⟨⟨g1, g2, g3⟩, _⟩ := cursorStep_inv n _ _ hs.2.1 h2
    exact ⟨h1, g1, g2, g3⟩
  have h00 : Inv s0 ∧ (cur s0).left ≤ (cur s0).position ∧ (cur s0).position ≤ n ∧
      (cur s0).left ≤ n := ⟨h0, by omega, by omega, by omega⟩
  have hall := passes_forall step _ hinv fuel s0 h00
  have hchain : List.Chain' LeftMoves ((passes step fuel s0).map cur) := by
    rw [List.chain'_map]
    exact passes_chain step _ (fun a b => LeftMoves (cur a) (cur b)) hinv
      (fun s s1 hs hst => (cursorStep_inv n _ _ hs.2.1 (hstep s s1 hs.1 hst).2).2) fuel s0 h00
  have hleft : ∀ c ∈ (passes step fuel s0).map cur, c.left ≤ n := by
    intro c hc
    obtain ⟨s, hs, rfl⟩ := List.mem_map.mp hc
    exact (hall s hs).2.2.2
  refine ⟨⟨hchain, ?_, ?_⟩, ⟨?_, ?_⟩, fun s hs => (hall s hs).1⟩
  · cases hp : passes step fuel s0 with
    | nil => simp [backwardResets]
    | cons y ys =>
      have := backwardResets_le n _ hchain hleft (cur y) (by rw [hp]; rfl)
      rw [hp] at this
      omega
  · cases hp : passes step fuel s0 with
    | nil => simp [leftGrowths]
    | cons y ys =>
      have := leftGrowths_le n _ hchain hleft (cur y) (by rw [hp]; rfl)
      rw [hp] at this
      omega
  · intro c hc
    obtain ⟨s, hs, rfl⟩ := List.mem_map.mp hc
    exact ⟨(hall s hs).2.1, (hall s hs).2.2.1⟩
  · intro c hc
    rw [← List.map_dropLast] at hc
    obtain ⟨s, hs, rfl⟩ := List.mem_map.mp hc
    obtain ⟨s1, hst⟩ := passes_dropLast step fuel s0 s hs
    exact (hstep s s1 (hall s (List.dropLast_subset _ hs)).1 hst).2.1

theorem validate_cursorStep (root : DataNode) (runes : List Rune) (s s1 : Cursor)
    (hst : validateStep root runes s = Step.next s1) : CursorStep runes.length s s1 := by
  unfold validateStep at hst
  simp only at hst
  split at hst
  next h =>
    refine ⟨h, ?_⟩
    split at hst
    · cases hst; exact Or.inl ⟨rfl, rfl⟩
    · split at hst
      · cases hst; exact Or.inl ⟨rfl, rfl⟩
      · split at hst
        · cases hst
        · cases hst; exact Or.inr (Or.inl ⟨rfl, rfl⟩)
  next h => cases hst

theorem findAll_cursorStep (root : DataNode) (runes : List Rune) (s s1 : FindState)
    (hst : findAllStep root runes s = Step.next s1) :
    CursorStep runes.length s.cur s1.cur := by
  unfold findAllStep at hst
  simp only at hst
  split at hst
  next h =>
    refine ⟨h, ?_⟩
    split at hst
    · cases hst; exact Or.inl ⟨rfl, rfl⟩
    · split at hst
      · cases hst; exact Or.inl ⟨rfl, rfl⟩
      · cases hst; exact Or.inr (Or.inl ⟨rfl, rfl⟩)
  next h => cases hst

theorem filter_cursorStep (root : DataNode) (runes : List Rune) (s s1 : FilterState)
    (hst : filterStep root runes s = Step.next s1) :
    CursorStep runes.length s.cur s1.cur := by
  unfold filterStep at hst
  simp only at hst
  split at hst
  next h =>
    refine ⟨h, ?_⟩
    split at hst
    · split at hst
      · cases hst
      · cases hst; exact Or.inl ⟨rfl, rfl⟩
    · split at hst
      · split at hst
        · cases hst
        · cases hst; exact Or.inl ⟨rfl, rfl⟩
      · split at hst
        · cases hst; exact Or.inr (Or.inr ⟨rfl, rfl⟩)
        · cases hst; exact Or.inr (Or.inl ⟨rfl, rfl⟩)
  next h => cases hst

theorem replace_cursorStep (root : DataNode) (c : Rune) (n : Nat) (s s1 : ReplaceState)
    (hn : s.runes.length = n) (hst : replaceStep root c n s = Step.next s1) :
    CursorStep n s.cur s1.cur := by
  unfold replaceStep at hst
  simp only at hst
  split at hst
  next h =>
    refine ⟨by omega, ?_⟩
    split at hst
    · cases hst; exact Or.inl ⟨rfl, rfl⟩
    · split at hst
      · cases hst; exact Or.inl ⟨rfl, rfl⟩
      · cases hst; exact Or.inr (Or.inl ⟨rfl, rfl⟩)
  next h => cases hst

theorem validate_run (t : DataTrie) (text : List Rune) :
    OrderlyRun text.length (t.validatePasses text) ∧
      BoundedRun text.length (t.validatePasses text) := by
  have h := run_cursors (validateStep t.Root text) (fun s => s) text.length (fun _ => True)
    (fun s s1 _ hst => ⟨trivial, validate_cursorStep t.Root text s s1 hst⟩)
    (scanFuel text.length) ⟨t.Root, 0, 0⟩ trivial ⟨rfl, rfl⟩
  simp only [List.map_id'] at h
  exact ⟨h.1, h.2.1⟩

theorem findAll_run (t : DataTrie) (text : List Rune) :
    OrderlyRun text.length (t.findAllPasses text) ∧
      BoundedRun text.length (t.findAllPasses text) := by
  have h := run_cursors (findAllStep t.Root text) (fun s => s.cur) text.length (fun _ => True)
    (fun s s1 _ hst => ⟨trivial, findAll_cursorStep t.Root text s s1 hst⟩)
    (scanFuel text.length) ⟨⟨t.Root, 0, 0⟩, []⟩ trivial ⟨rfl, rfl⟩
  exact ⟨h.1, h.2.1⟩

theorem filter_run (t : DataTrie) (text : List Rune) :
    OrderlyRun text.length (t.filterPasses text) ∧
      BoundedRun text.length (t.filterPasses text) := by
  have h := run_cursors (filterStep t.Root text) (fun s => s.cur) text.length (fun _ => True)
    (fun s s1 _ hst => ⟨trivial, filter_cursorStep t.Root text s s1 hst⟩)
    (scanFuel text.length) ⟨⟨t.Root, 0, 0⟩, [], []⟩ trivial ⟨rfl, rfl⟩
  exact ⟨h.1, h.2.1⟩

theorem replace_run (t : DataTrie) (text : List Rune) (c : Rune) :
    OrderlyRun text.length (t.replacePasses text c) ∧
      BoundedRun text.length (t.replacePasses text c) ∧
      ∀ s ∈ passes (replaceStep t.Root c text.length) (scanFuel text.length)
        ⟨⟨t.Root, 0, 0⟩, text⟩, s.runes.length = text.length := by
  have h := run_cursors (replaceStep t.Root c text.length) (fun s => s.cur) text.length
    (fun s => s.cur.left ≤ s.cur.position ∧ s.cur.position ≤ text.length ∧
      s.runes.length = text.length)
    (fun s s1 hs hst =>
      ⟨(replace_next t.Root c text.length s s1 hs hst).1,
        replace_cursorStep t.Root c text.length s s1 hs.2.2 hst⟩)
    (scanFuel text.length) ⟨⟨t.Root, 0, 0⟩, text⟩ ⟨le_refl _, Nat.zero_le _, rfl⟩ ⟨rfl, rfl⟩
  exact ⟨h.1, h.2.1, fun s hs => (h.2.2 s hs).2.2⟩

theorem scans_return (t : DataTrie) (text : List Rune) (c : Rune) :
    ((∃ r, t.Validate text = some r) ∧
      EndsDone (validateStep t.Root text) (scanFuel text.length) ⟨t.Root, 0, 0⟩) ∧
    ((∃ r, t.FindAll text = some r) ∧
      EndsDone (findAllStep t.Root text) (scanFuel text.length) ⟨⟨t.Root, 0, 0⟩, []⟩) ∧
    ((∃ r, t.Filter text = some r) ∧
      EndsDone (filterStep t.Root text) (scanFuel text.length) ⟨⟨t.Root, 0, 0⟩, [], []⟩) ∧
    ((∃ r, t.Replace text c = some r) ∧
      EndsDone (replaceStep t.Root c text.length) (scanFuel text.length)
        ⟨⟨t.Root, 0, 0⟩, text⟩) := by
  refine ⟨⟨⟨_, Validate_eq_spec t text⟩, ?_⟩, ⟨⟨_, FindAll_eq_spec t text⟩, ?_⟩,
    ⟨⟨_, Filter_eq_spec t text⟩, ?_⟩, ⟨⟨_, Replace_eq_spec t text c⟩, ?_⟩⟩
  · obtain ⟨last, h1, h2⟩ := endsDone_of_iterate _ _ _ _ (Validate_eq_spec t text)
    exact ⟨last, _, h1, h2⟩
  · obtain ⟨last, h1, h2⟩ := endsDone_of_iterate _ _ _ _ (findAll_scan t text)
    exact ⟨last, _, h1, h2⟩
  · obtain ⟨r, hr, _⟩ := filterRun_spec t text
    obtain ⟨last, h1, h2⟩ := endsDone_of_iterate _ _ _ _ hr
    exact ⟨last, _, h1, h2⟩
  · obtain ⟨last, h1, h2⟩ := endsDone_of_iterate _ _ _ _ (replaceRun_eq_spec t text c)
    exact ⟨last, _, h1, h2⟩

/-- C17: every scan terminates despite resetting `position` backward.  Each of
`Validate`, `FindAll`, `Filter` and `Replace` returns, its loop ending in a
pass that leaves it; along each run `left` never decreases, every pass after
which `position` has not moved forward has increased `left` by exactly one, and
there are at most `length(text)` such passes. -/
theorem scans_terminate (t : DataTrie) (text : List Rune) (c : Rune) :
    (((∃ r, t.Validate text = some r) ∧
        EndsDone (validateStep t.Root text) (scanFuel text.length) ⟨t.Root, 0, 0⟩) ∧
      ((∃ r, t.FindAll text = some r) ∧
        EndsDone (findAllStep t.Root text) (scanFuel text.length) ⟨⟨t.Root, 0, 0⟩, []⟩) ∧
      ((∃ r, t.Filter text = some r) ∧
        EndsDone (filterStep t.Root text) (scanFuel text.length) ⟨⟨t.Root, 0, 0⟩, [], []⟩) ∧
      ((∃ r, t.Replace text c = some r) ∧
        EndsDone (replaceStep t.Root c text.length) (scanFuel text.length)
          ⟨⟨t.Root, 0, 0⟩, text⟩)) ∧
    OrderlyRun text.length (t.validatePasses text) ∧
    OrderlyRun text.length (t.findAllPasses text) ∧
    OrderlyRun text.length (t.filterPasses text) ∧
    OrderlyRun text.length (t.replacePasses text c) :=
  ⟨scans_return t text c, (validate_run t text).1, (findAll_run t text).1,
    (filter_run t text).1, (replace_run t text c).1⟩

theorem validate_leave (root : DataNode) (runes : List Rune) (s : Cursor)
    (h : ¬ s.position < runes.length) : validateStep root runes s = Step.done (true, []) := by
  unfold validateStep
  simp only
  rw [dif_neg h]

theorem findAll_leave (root : DataNode) (runes : List Rune) (s : FindState)
    (h : ¬ s.cur.position < runes.length) : findAllStep root runes s = Step.done s.found := by
  unfold findAllStep
  simp only
  rw [dif_neg h]

theorem filter_leave (root : DataNode) (runes : List Rune) (s : FilterState)
    (h : ¬ s.cur.position < runes.length) : filterStep root runes s = Step.done s := by
  unfold filterStep
  simp only
  rw [dif_neg h]

theorem replace_leave (root : DataNode) (c : Rune) (n : Nat) (s : ReplaceState)
    (h : ¬ s.cur.position < s.runes.length) : replaceStep root c n s = Step.done s.runes := by
  unfold replaceStep
  simp only
  rw [dif_neg h]

theorem pass_in_range {σ : Type} (cur : σ → Cursor) (n : Nat) (leaves : σ → Prop)
    (tr : List σ) (hb : BoundedRun n (tr.map cur))
    (hl : ∀ s ∈ tr, ¬ (cur s).position < n → leaves s) :
    ∀ s ∈ tr, PassInRange n (cur s) (leaves s) := by
  intro s hs
  obtain ⟨h1, h2⟩ := hb.1 (cur s) (List.mem_map_of_mem cur hs)
  by_cases hp : (cur s).position < n
  · exact Or.inl ⟨h1, hp⟩
  · exact Or.inr ⟨by omega, hl s hs hp⟩

theorem validate_return_in_range (t : DataTrie) (text : List Rune) :
    ∀ s ∈ t.validatePasses text, ∀ w, validateStep t.Root text s = Step.done (false, w) →
      s.left ≤ s.position ∧ s.position < text.length := by
  intro s hs w hst
  refine ⟨((validate_run t text).2.1 s hs).1, ?_⟩
  by_contra hp
  rw [validate_leave t.Root text s hp] at hst
  cases hst

theorem passes_in_range (t : DataTrie) (text : List Rune) (c : Rune) :
    (∀ s ∈ passes (validateStep t.Root text) (scanFuel text.length) ⟨t.Root, 0, 0⟩,
      PassInRange text.length s (validateStep t.Root text s = Step.done (true, []))) ∧
    (∀ s ∈ passes (findAllStep t.Root text) (scanFuel text.length) ⟨⟨t.Root, 0, 0⟩, []⟩,
      PassInRange text.length s.cur (findAllStep t.Root text s = Step.done s.found)) ∧
    (∀ s ∈ passes (filterStep t.Root text) (scanFuel text.length) ⟨⟨t.Root, 0, 0⟩, [], []⟩,
      PassInRange text.length s.cur (filterStep t.Root text s = Step.done s)) ∧
    (∀ s ∈ passes (replaceStep t.Root c text.length) (scanFuel text.length)
        ⟨⟨t.Root, 0, 0⟩, text⟩,
      PassInRange text.length s.cur
        (replaceStep t.Root c text.length s = Step.done s.runes)) := by
  refine ⟨?_, ?_, ?_, ?_⟩
  · have hb := (validate_run t text).2
    rw [DataTrie.validatePasses, ← List.map_id (passes _ _ _)] at hb
    exact pass_in_range id text.length _ _ hb (fun s _ hp => validate_leave t.Root text s hp)
  · have hb := (findAll_run t text).2
    rw [DataTrie.findAllPasses] at hb
    exact pass_in_range (fun s : FindState => s.cur) text.length _ _ hb
      (fun s _ hp => findAll_leave t.Root text s hp)
  · have hb := (filter_run t text).2
    rw [DataTrie.filterPasses] at hb
    exact pass_in_range (fun s : FilterState => s.cur) text.length _ _ hb
      (fun s _ hp => filter_leave t.Root text s hp)
  · have hb := (replace_run t text c).2.1
    rw [DataTrie.replacePasses] at hb
    exact pass_in_range (fun s : ReplaceState => s.cur) text.length _ _ hb
      (fun s hs hp => replace_leave t.Root c text.length s
        (by rw [(replace_run t text c).2.2 s hs]; exact hp))

/-- C20: the cursor bounds invariant.  In `Validate`, `FindAll`, `Filter` and
`Replace`, every loop iteration has `left ≤ position < length(text)`, the
iteration in which `Validate` returns the slice `runes[left..position]`
included; the only other pass is the test of the loop condition that ends the
loop, with `left ≤ position = length(text)`, in which no body runs.  So the
guard `left <= position` is always true and `runes[left]`, `runes[left:]` and
`runes[left..position]` are in range: no run fails on an index, and the slice
that `Replace` overwrites keeps the length of the text. -/
theorem cursor_bounds (t : DataTrie) (text : List Rune) (c : Rune) :
    ((∀ s ∈ passes (validateStep t.Root text) (scanFuel text.length) ⟨t.Root, 0, 0⟩,
        PassInRange text.length s (validateStep t.Root text s = Step.done (true, []))) ∧
      (∀ s ∈ passes (findAllStep t.Root text) (scanFuel text.length) ⟨⟨t.Root, 0, 0⟩, []⟩,
        PassInRange text.length s.cur (findAllStep t.Root text s = Step.done s.found)) ∧
      (∀ s ∈ passes (filterStep t.Root text) (scanFuel text.length)
          ⟨⟨t.Root, 0, 0⟩, [], []⟩,
        PassInRange text.length s.cur (filterStep t.Root text s = Step.done s)) ∧
      (∀ s ∈ passes (replaceStep t.Root c text.length) (scanFuel text.length)
          ⟨⟨t.Root, 0, 0⟩, text⟩,
        PassInRange text.length s.cur
          (replaceStep t.Root c text.length s = Step.done s.runes))) ∧
    (∀ s ∈ t.validatePasses text, ∀ w,
      validateStep t.Root text s = Step.done (false, w) →
        s.left ≤ s.position ∧ s.position < text.length) ∧
    BoundedRun text.length (t.validatePasses text) ∧
    BoundedRun text.length (t.findAllPasses text) ∧
    BoundedRun text.length (t.filterPasses text) ∧
    BoundedRun text.length (t.replacePasses text c) ∧
    (∀ s ∈ passes (replaceStep t.Root c text.length) (scanFuel text.length)
      ⟨⟨t.Root, 0, 0⟩, text⟩, s.runes.length = text.length) ∧
    EndsDone (validateStep t.Root text) (scanFuel text.length) ⟨t.Root, 0, 0⟩ ∧
    EndsDone (findAllStep t.Root text) (scanFuel text.length) ⟨⟨t.Root, 0, 0⟩, []⟩ ∧
    EndsDone (filterStep t.Root text) (scanFuel text.length) ⟨⟨t.Root, 0, 0⟩, [], []⟩ ∧
    EndsDone (replaceStep t.Root c text.length) (scanFuel text.length)
      ⟨⟨t.Root, 0, 0⟩, text⟩ :=
  ⟨passes_in_range t text c, validate_return_in_range t text,
    (validate_run t text).2, (findAll_run t text).2, (filter_run t text).2,
    (replace_run t text c).2.1, (replace_run t text c).2.2,
    (scans_return t text c).1.2, (scans_return t text c).2.1.2,
    (scans_return t text c).2.2.1.2, (scans_return t text c).2.2.2.2⟩

end Sensitive
